import Mathlib

/-!
# Cipher: a book cipher over a tokenised key file (`Main.c`)

A shallow embedding of the core of `Main.c`: `ParseWords`, the key-loading
step of `readCipherKey`, `encipherMessage` and the decode loop of
`decipherFile`, followed by theorems about them.

Conventions of the embedding.

* A byte is a natural number (a `char` read as `unsigned char`, `0 .. 255`);
  a C string or buffer is a `List Nat`.
* A pointer into a buffer is either an offset (`cipherItr`, the entries of
  `wordArray`) or the list of bytes from the pointer onwards (`messageItr`,
  `bufferItr`); a `NULL` pointer is `none`.
* `rand()` is a stream `rnd : Nat → Nat`: call number `n` returns `rnd n`.
* A `while` / `do-while` loop whose trip count is not fixed by a list is a
  recursion on a `fuel` argument; `none` (or `outOfFuel`) means the loop was
  still running when the fuel ran out.
* A read outside the storage of the key is undefined behaviour in C and is
  modelled as its own result (`undefinedRead`).
-/

namespace Cipher

/-! ## `<ctype.h>` in the "C" locale, `<errno.h>` -/

/-- `isspace`: space, `\t`, `\n`, `\v`, `\f`, `\r`. -/
def isspace (c : Nat) : Bool := c == 32 || (9 ≤ c && c ≤ 13)

/-- `isdigit`: `'0' .. '9'`. -/
def isdigit (c : Nat) : Bool := 48 ≤ c && c ≤ 57

/-- `tolower`: `'A' .. 'Z'` are moved to `'a' .. 'z'`, other bytes are unchanged. -/
def tolower (c : Nat) : Nat := if 65 ≤ c ∧ c ≤ 90 then c + 32 else c

/-- `EINVAL`. -/
def EINVAL : Nat := 22

/-- `ERANGE`. -/
def ERANGE : Nat := 34

/-- The bytes of a string literal (used for concrete inputs only). -/
def bytes (s : String) : List Nat := s.toList.map Char.toNat

/-! ## The data model -/

/-- `struct CipherKeyFile`. `buffer` holds the `size` key bytes and the
terminator written by `readCipherKey`; an entry of `wordArray` is a pointer
into `buffer` (an offset) or `NULL`. -/
structure CipherKeyFile where
  wordCount : Nat
  wordArray : Option (List (Option Nat))
  size : Nat
  buffer : Option (List Nat)
deriving DecidableEq, Repr

/-- The C string that starts at offset `off` of `buffer`: the bytes up to the
first NUL (the end of the list stands for the end of the storage). -/
def cstringAt (buffer : List Nat) (off : Nat) : List Nat :=
  (buffer.drop off).takeWhile (fun b => b != 0)

/-- The string `cipherKeyFile->wordArray[wordIndex]` as `strlen` and indexing
below `strlen` see it. A `NULL` or missing entry reads as the empty string. -/
def wordAt (key : CipherKeyFile) (wordIndex : Nat) : List Nat :=
  match key.wordArray, key.buffer with
  | some arr, some buffer =>
    match arr.get? wordIndex with
    | some (some off) => cstringAt buffer off
    | _ => []
  | _, _ => []

/-- The word table: the strings of entries `0 .. wordCount - 1`. -/
def wordTable (key : CipherKeyFile) : List (List Nat) :=
  (List.range key.wordCount).map (wordAt key)

/-! ## `ParseWords` -/

/-- The local variables of `ParseWords` together with the fields of the key
file that its loop reads and writes. -/
structure ParseState where
  status : Nat
  cipherItr : Nat
  wordState : Nat
  wordIndex : Nat
  wordCount : Nat
  wordArray : Option (List (Option Nat))
  buffer : List Nat
deriving DecidableEq, Repr

/-- One iteration of `while (cipherItr < cipherEnd)` in `ParseWords`
(lines 223-278). Setting `status := ERANGE` is the `break`. -/
def parseStep (s : ParseState) : ParseState :=
  if s.wordState = 0 then
    if isspace (s.buffer.getD s.cipherItr 0) then
      { s with cipherItr := s.cipherItr + 1 }
    else
      { s with wordState := 1 }
  else if s.wordState = 1 then
    match s.wordArray with
    | some arr =>
      if s.wordIndex ≥ s.wordCount then
        { s with status := ERANGE }
      else
        { s with wordArray := some (arr.set s.wordIndex (some s.cipherItr)),
                 wordIndex := s.wordIndex + 1,
                 wordState := 2 }
    | none => { s with wordCount := s.wordCount + 1, wordState := 2 }
  else if s.wordState = 2 then
    if isspace (s.buffer.getD s.cipherItr 0) then
      match s.wordArray with
      | some _ =>
        { s with wordState := 0,
                 buffer := s.buffer.set s.cipherItr 0,
                 cipherItr := s.cipherItr + 1 }
      | none => { s with wordState := 0 }
    else
      { s with cipherItr := s.cipherItr + 1 }
  else s

/-- The loop `while (cipherItr < cipherEnd)` of `ParseWords`. -/
def parseLoop (cipherEnd : Nat) : Nat → ParseState → Option ParseState
  | 0, _ => none
  | fuel + 1, s =>
    if s.cipherItr < cipherEnd then
      let s1 := parseStep s
      if s1.status ≠ 0 then some s1 else parseLoop cipherEnd fuel s1
    else some s

/-- What a call of `ParseWords` leaves behind: the returned `bool`, the value
stored in `errno` (if any) and the key file after the call. -/
structure ParseReturn where
  success : Bool
  errno : Option Nat
  key : Option CipherKeyFile
deriving DecidableEq, Repr

/-- `bool ParseWords(CipherKeyFile* cipherKeyFile)`. -/
def ParseWords (fuel : Nat) (cipherKeyFile : Option CipherKeyFile) : Option ParseReturn :=
  match cipherKeyFile with
  | none => some ⟨false, some EINVAL, none⟩
  | some key =>
    match key.buffer with
    | none => some ⟨false, some EINVAL, some key⟩
    | some buffer =>
      let wordCount := if key.wordArray.isNone then 0 else key.wordCount
      match parseLoop key.size fuel ⟨0, 0, 0, 0, wordCount, key.wordArray, buffer⟩ with
      | none => none
      | some s =>
        let buffer1 := if key.wordArray.isSome then s.buffer.set s.cipherItr 0 else s.buffer
        let key1 : CipherKeyFile := ⟨s.wordCount, s.wordArray, key.size, some buffer1⟩
        if s.status ≠ 0 then some ⟨false, some s.status, some key1⟩
        else some ⟨true, none, some key1⟩

/-! ## `readCipherKey` -/

/-- The loop `while (buffer[charIndex] != '\0')` of `readCipherKey`
(lines 373-377), walking the bytes from `charIndex` on. The statement
`tolower(buffer[charIndex]);` computes a value and drops it; nothing is
stored. Returns the buffer and the final `charIndex`. -/
def lowerKeyLoop (buffer : List Nat) : List Nat → Nat → List Nat × Nat
  | [], charIndex => (buffer, charIndex)
  | b :: rest, charIndex =>
    if b ≠ 0 then
      let _dropped := tolower b
      lowerKeyLoop buffer rest (charIndex + 1)
    else (buffer, charIndex)

/-- The key-loading step of `readCipherKey` (lines 357-378) for a file whose
bytes `file` were read in full: the buffer of `size + 1` bytes after it. -/
def loadKeyBuffer (file : List Nat) : List Nat :=
  let buffer := file ++ [0]
  (lowerKeyLoop buffer buffer 0).1

/-- `readCipherKey` for a key file with bytes `file`, every allocation and the
read succeeding; `none` in the result stands for the `NULL` return. -/
def readCipherKey (fuel : Nat) (file : List Nat) : Option (Option CipherKeyFile) :=
  let key0 : CipherKeyFile := ⟨0, none, file.length, some (loadKeyBuffer file)⟩
  match ParseWords fuel (some key0) with
  | none => none
  | some r1 =>
    if !r1.success then some none
    else
      match r1.key with
      | none => some none
      | some key1 =>
        let key2 : CipherKeyFile :=
          { key1 with wordArray := some (List.replicate key1.wordCount none) }
        match ParseWords fuel (some key2) with
        | none => none
        | some r2 => if !r2.success then some none else some r2.key

/-! ## `encipherMessage` -/

/-- The locals of the occurrence search of `encipherMessage`. -/
structure SearchState where
  wordIndex : Nat
  charIndex : Nat
  occurance : Nat
  found : Bool
  foundOne : Bool
deriving DecidableEq, Repr

/-- The loop `for (charIndex = 0; charIndex < wordLength; ++charIndex)`
(lines 487-501) over the bytes `word[charIndex ..]`. The counter `occurance`
is at least 1 whenever it is decremented (it is `rand() % 10 + 1` at first
and is only decremented when it is not 1), so the unsigned subtraction never
wraps. -/
def scanChars (character : Nat) : List Nat → SearchState → SearchState
  | [], s => s
  | ch :: rest, s =>
    if ch = character then
      if s.occurance = 1 then
        { s with foundOne := true, found := true }
      else
        scanChars character rest
          { s with foundOne := true, occurance := s.occurance - 1, charIndex := s.charIndex + 1 }
    else
      scanChars character rest { s with charIndex := s.charIndex + 1 }

/-- The loop `for (wordIndex = 0; wordIndex < wordCount; ++wordIndex)`
(lines 482-505) over the words `wordArray[wordIndex ..]`. -/
def scanWords (character : Nat) : List (List Nat) → SearchState → SearchState
  | [], s => s
  | word :: rest, s =>
    let s1 := scanChars character word { s with charIndex := 0 }
    if s1.found then s1
    else scanWords character rest { s1 with wordIndex := s1.wordIndex + 1 }

/-- The `do { ... } while (foundOne)` loop (lines 480-510). -/
def occurrenceSearch (words : List (List Nat)) (character : Nat) :
    Nat → SearchState → Option SearchState
  | 0, _ => none
  | fuel + 1, s =>
    let s1 := scanWords character words { s with wordIndex := 0 }
    if s1.found then some s1
    else if s1.foundOne then occurrenceSearch words character fuel s1
    else some s1

/-- The state in which the search starts (lines 474-478). -/
def searchStart (occurance : Nat) : SearchState := ⟨0, 0, occurance, false, false⟩

/-- Helper of `formatUnsigned`: the decimal digits of `n`, most significant first. -/
def formatDigits : Nat → Nat → List Nat
  | 0, _ => []
  | fuel + 1, n =>
    if n < 10 then [48 + n] else formatDigits fuel (n / 10) ++ [48 + n % 10]

/-- What `sprintf` writes for `%u`: the decimal digits of the index (the
`size_t` indices are taken to fit the `unsigned` that `%u` prints). -/
def formatUnsigned (n : Nat) : List Nat := formatDigits (n + 1) n

/-- The `else` branch of the message loop (lines 473-519) for the message
byte `m` when `rand()` returns `r`: the bytes that `sprintf` appends to
`result`, either `#,` or `<wordIndex>,<charIndex>,`. -/
def encipherCharacter (fuel : Nat) (words : List (List Nat)) (m r : Nat) : Option (List Nat) :=
  match occurrenceSearch words (tolower m) fuel (searchStart (r % 10 + 1)) with
  | none => none
  | some s =>
    if !s.found then some [35, 44]
    else some (formatUnsigned s.wordIndex ++ [44] ++ formatUnsigned s.charIndex ++ [44])

/-- The loop `while (messageItr < messageEnd)` of `encipherMessage`
(lines 461-522): `message` is the part not yet read, `calls` the number of
`rand()` calls made so far, `result` the bytes in front of `resultItr`. -/
def encipherLoop (fuel : Nat) (words : List (List Nat)) (rnd : Nat → Nat) :
    List Nat → Nat → List Nat → Option (List Nat)
  | [], _, result => some result
  | m :: rest, calls, result =>
    if isspace m then
      let result1 := if result.getLast? = some 44 then result.dropLast else result
      encipherLoop fuel words rnd rest calls (result1 ++ [m])
    else
      match encipherCharacter fuel words m (rnd calls) with
      | none => none
      | some token => encipherLoop fuel words rnd rest (calls + 1) (result ++ token)

/-- What a call of `encipherMessage` returns: `true` with the string left in
`result`, or `false` with the value stored in `errno`. -/
inductive EncipherReturn where
  | success (result : List Nat)
  | failure (errno : Nat)
deriving DecidableEq, Repr

/-- `bool encipherMessage(cipherKeyFile, message, messageLength, result, resultSize)`
with `messageLength` the length of `message`. `resultSize` is not read by the
function. -/
def encipherMessage (fuel : Nat) (cipherKeyFile : Option CipherKeyFile)
    (message : Option (List Nat)) (rnd : Nat → Nat) : Option EncipherReturn :=
  match cipherKeyFile, message with
  | some key, some msg =>
    if key.buffer.isNone || key.wordArray.isNone then some (.failure EINVAL)
    else
      match encipherLoop fuel (wordTable key) rnd msg 0 [] with
      | none => none
      | some result => some (.success result.dropLast)
  | _, _ => some (.failure EINVAL)

/-! ## The decode loop of `decipherFile` -/

/-- The digit run of `strtol` in base 10. -/
def strtolDigits : List Nat → Nat → Nat × List Nat
  | [], acc => (acc, [])
  | c :: rest, acc =>
    if isdigit c then strtolDigits rest (acc * 10 + (c - 48)) else (acc, c :: rest)

/-- `strtol(nptr, &endptr, 10)`: leading white space, an optional sign, then
digits; without a digit the value is 0 and `endptr` is `nptr`. Returns the
value and the bytes from `endptr` on. (The clamp to `LONG_MAX` is left out:
such a value is far outside every table this program can hold.) -/
def strtol (nptr : List Nat) : Int × List Nat :=
  let s1 := nptr.dropWhile isspace
  let negative := s1.head? = some 45
  let s2 := if s1.head? = some 45 ∨ s1.head? = some 43 then s1.tail else s1
  if isdigit (s2.headD 0) then
    let r := strtolDigits s2 0
    (if negative then -(r.1 : Int) else (r.1 : Int), r.2)
  else (0, nptr)

/-- The read `cipherKeyFile->wordArray[wordIndex][charIndex]` of line 702, the
indices being the `strtol` values converted to `size_t`. It is defined when
the entry exists, is not `NULL`, and the byte lies in the buffer. -/
def keyByte (key : CipherKeyFile) (wordIndex charIndex : Int) : Option Nat :=
  if wordIndex < 0 ∨ charIndex < 0 then none
  else
    match key.wordArray, key.buffer with
    | some arr, some buffer =>
      match arr.get? wordIndex.toNat with
      | some (some off) => buffer.get? (off + charIndex.toNat)
      | _ => none
    | _, _ => none

/-- How the decode loop ended, with the bytes printed up to then. -/
inductive DecipherRun where
  | finished (printed : List Nat)
  | undefinedRead (printed : List Nat)
  | outOfFuel
deriving DecidableEq, Repr

/-- The test `if (*bufferItr == '\0') printf("\n");` that ends every iteration
(lines 712-715). -/
def flushAtEnd (bufferItr printed : List Nat) : List Nat :=
  if bufferItr.headD 0 = 0 then printed ++ [10] else printed

/-- The loop `while (*bufferItr != '\0')` of `decipherFile` followed by the
final `printf("\n")` (lines 680-718). `bufferItr` is the file content from the
pointer on; past its end the zero-filled allocation reads as NUL. -/
def decipherLoop (key : CipherKeyFile) : Nat → List Nat → List Nat → DecipherRun
  | 0, _, _ => .outOfFuel
  | fuel + 1, bufferItr, printed =>
    let c := bufferItr.headD 0
    if c = 0 then .finished (printed ++ [10])
    else if isspace c then
      let itr1 := bufferItr.tail
      decipherLoop key fuel itr1 (flushAtEnd itr1 (printed ++ [c]))
    else if c = 35 then
      let itr1 := bufferItr.tail
      let itr2 := if itr1.headD 0 = 44 then itr1.tail else itr1
      decipherLoop key fuel itr2 (flushAtEnd itr2 (printed ++ [35]))
    else if isdigit c then
      let r1 := strtol bufferItr
      let r2 := strtol r1.2.tail
      match keyByte key r1.1 r2.1 with
      | none => .undefinedRead printed
      | some b =>
        let itr1 := r2.2
        let itr2 := if itr1.headD 0 = 44 then itr1.tail else itr1
        decipherLoop key fuel itr2 (flushAtEnd itr2 (printed ++ [b]))
    else
      decipherLoop key fuel bufferItr (flushAtEnd bufferItr printed)

/-- The decode step of `decipherFile` (lines 675-719) on the file content
`content`. -/
def decipher (fuel : Nat) (key : CipherKeyFile) (content : List Nat) : DecipherRun :=
  decipherLoop key fuel content []

/-! ## Reference definitions used in the statements -/

/-- The coordinates at which `character` stands in `word[charIndex ..]`, left to right. -/
def occurrencesInWord (character wordIndex : Nat) : List Nat → Nat → List (Nat × Nat)
  | [], _ => []
  | ch :: rest, charIndex =>
    if ch = character then
      (wordIndex, charIndex) :: occurrencesInWord character wordIndex rest (charIndex + 1)
    else occurrencesInWord character wordIndex rest (charIndex + 1)

/-- The coordinates at which `character` stands in the words from `wordIndex` on. -/
def occurrencesFrom (character : Nat) : List (List Nat) → Nat → List (Nat × Nat)
  | [], _ => []
  | word :: rest, wordIndex =>
    occurrencesInWord character wordIndex word 0 ++ occurrencesFrom character rest (wordIndex + 1)

/-- All occurrences of `character` in the word table, in scan order. -/
def occurrences (words : List (List Nat)) (character : Nat) : List (Nat × Nat) :=
  occurrencesFrom character words 0

/-- The token of §6 for the message byte `m` when `rand()` returns `r`, without
a separator: `<wordIndex>,<charIndex>` for occurrence number
`(r % 10) % k` (from 0) of `tolower m`, where `k` is the number of its
occurrences, and `#` when there is none. -/
def coordinateToken (words : List (List Nat)) (m r : Nat) : List Nat :=
  match (occurrences words (tolower m))[(r % 10) % (occurrences words (tolower m)).length]? with
  | some (w, c) => formatUnsigned w ++ [44] ++ formatUnsigned c
  | none => [35]

/-- The ciphertext layout of §6: white space stands for itself, every other
byte is its token, and two tokens that follow each other directly are joined
by one comma. `calls` counts the `rand()` calls made before. -/
def joinTokens (words : List (List Nat)) (rnd : Nat → Nat) : List Nat → Nat → List Nat
  | [], _ => []
  | m :: rest, calls =>
    if isspace m then m :: joinTokens words rnd rest calls
    else
      coordinateToken words m (rnd calls) ++
        (if isspace (rest.headD 32) then [] else [44]) ++
        joinTokens words rnd rest (calls + 1)

/-- The content of `result` when the message loop ends, after the bytes `B`
that no later step touches: `pending` tells whether a separator comma stands
right after `B`. -/
def pendingLayout (words : List (List Nat)) (rnd : Nat → Nat) :
    List Nat → Nat → Bool → List Nat
  | [], _, pending => if pending then [44] else []
  | m :: rest, calls, pending =>
    if isspace m then m :: pendingLayout words rnd rest calls false
    else
      (if pending then [44] else []) ++ coordinateToken words m (rnd calls) ++
        pendingLayout words rnd rest (calls + 1) true

/-- The message without its last byte when that byte is white space. -/
def dropFinalSpace (message : List Nat) : List Nat :=
  if (message.getLast?.map isspace) = some true then message.dropLast else message

/-- What the decoder prints for the token of the message byte `m`: white space
as it is, the lower-cased byte when it occurs in the table, `#` otherwise. -/
def decodedByte (words : List (List Nat)) (m : Nat) : Nat :=
  if isspace m then m
  else if occurrences words (tolower m) = [] then 35
  else tolower m

/-- After a comma of the layout comes a digit or `#`. -/
def afterComma (a b : Nat) : Prop := a = 44 → (isdigit b = true ∨ b = 35)

/-- The key file that `readCipherKey` builds from the file `a`. -/
def keyA : CipherKeyFile := ⟨1, some [some 0], 1, some [97, 0]⟩

/-- The key file that `readCipherKey` builds from the file `ab`. -/
def keyAb : CipherKeyFile := ⟨1, some [some 0], 2, some [97, 98, 0]⟩

/-- The key file that `readCipherKey` builds from the file `aa`. -/
def keyAa : CipherKeyFile := ⟨1, some [some 0], 2, some [97, 97, 0]⟩

/-- The key file that `readCipherKey` builds from the file `the cat sat`. -/
def keyTheCatSat : CipherKeyFile :=
  ⟨3, some [some 0, some 4, some 8], 11, some [116, 104, 101, 0, 99, 97, 116, 0, 115, 97, 116, 0]⟩

/-- A key file with a buffer and a word table but no word (an empty key file). -/
def keyEmpty : CipherKeyFile := ⟨0, some [], 0, some [0]⟩

/-- The maximal runs of non-white-space bytes of a buffer, in order: the
buffer is split at every white-space byte and the empty pieces are dropped. -/
def maximalRuns (buffer : List Nat) : List (List Nat) :=
  (buffer.splitOnP isspace).filter (fun run => !run.isEmpty)

/-- The runs that start in `buffer`, when the byte in front of it is inside a
word (`inWord`) or not. -/
def runsFrom : Bool → List Nat → List (List Nat)
  | _, [] => []
  | inWord, b :: rest =>
    if isspace b then runsFrom false rest
    else if inWord then runsFrom true rest
    else (b :: rest.takeWhile (fun c => !isspace c)) :: runsFrom true rest

/-- The bytes after the populate pass: the white-space byte that ends a word
is overwritten with NUL. -/
def markEnds : Bool → List Nat → List Nat
  | _, [] => []
  | inWord, b :: rest =>
    if isspace b then (if inWord then 0 else b) :: markEnds false rest
    else b :: markEnds true rest

/-- The offsets at which a word starts, for bytes that begin at offset `off`. -/
def wordStarts : Nat → Bool → List Nat → List Nat
  | _, _, [] => []
  | off, inWord, b :: rest =>
    if isspace b then wordStarts (off + 1) false rest
    else if inWord then wordStarts (off + 1) true rest
    else off :: wordStarts (off + 1) true rest

/-- The word table after the offsets `starts` were stored from entry `j` on. -/
def storeStarts : List (Option Nat) → Nat → List Nat → List (Option Nat)
  | arr, _, [] => arr
  | arr, j, s :: starts => storeStarts (arr.set j (some s)) (j + 1) starts

/-- Scan order of coordinates: words by ascending index, and inside a word the
characters left to right. -/
def precedes (p q : Nat × Nat) : Bool := p.1 < q.1 || (p.1 == q.1 && p.2 < q.2)

/-- The key file that `readCipherKey` builds from the file `ab cd`. -/
def keyAbCd : CipherKeyFile := ⟨2, some [some 0, some 3], 5, some [97, 98, 0, 99, 100, 0]⟩

/-- The bytes after a populate pass that has `k` table entries left and stops
with `ERANGE` at the start of the word after them: as in `markEnds`, and the
byte at which the pass stops is overwritten with NUL by line 283. -/
def markEndsStop : Nat → Bool → List Nat → List Nat
  | _, _, [] => []
  | k, inWord, b :: rest =>
    if isspace b then (if inWord then 0 else b) :: markEndsStop k false rest
    else if inWord then b :: markEndsStop k true rest
    else
      match k with
      | 0 => 0 :: rest
      | k + 1 => b :: markEndsStop k true rest

/-- A key file with the buffer `a b` and a word table of one entry, as a
populate pass receives it when the table is too small. -/
def keyShortTable : CipherKeyFile := ⟨1, some [none], 3, some [97, 32, 98, 0]⟩

/-! ## The occurrence search -/

theorem mem_occurrencesInWord (character wi : Nat) (chars : List Nat) (ci w c : Nat) :
    (w, c) ∈ occurrencesInWord character wi chars ci ↔
      w = wi ∧ ci ≤ c ∧ chars[c - ci]? = some character := by
  induction chars generalizing ci with
  | nil => simp [occurrencesInWord]
  | cons ch rest ih =>
    unfold occurrencesInWord
    by_cases hch : ch = character
    · rw [if_pos hch, List.mem_cons, ih]
      constructor
      · rintro (h | ⟨h1, h2, h3⟩)
        · simp only [Prod.mk.injEq] at h
          obtain ⟨rfl, rfl⟩ := h
          simp [hch]
        · refine ⟨h1, by omega, ?_⟩
          have : c - ci = (c - (ci + 1)) + 1 := by omega
          rw [this]; simpa using h3
      · rintro ⟨h1, h2, h3⟩
        by_cases hc : c = ci
        · left; simp [h1, hc]
        · right
          refine ⟨h1, by omega, ?_⟩
          have : c - ci = (c - (ci + 1)) + 1 := by omega
          rw [this] at h3; simpa using h3
    · rw [if_neg hch, ih]
      constructor
      · rintro ⟨h1, h2, h3⟩
        refine ⟨h1, by omega, ?_⟩
        have : c - ci = (c - (ci + 1)) + 1 := by omega
        rw [this]; simpa using h3
      · rintro ⟨h1, h2, h3⟩
        have hne : c ≠ ci := by
          rintro rfl
          simp at h3; exact hch h3
        refine ⟨h1, by omega, ?_⟩
        have : c - ci = (c - (ci + 1)) + 1 := by omega
        rw [this] at h3; simpa using h3

theorem mem_occurrencesFrom (character : Nat) (words : List (List Nat)) (wi w c : Nat) :
    (w, c) ∈ occurrencesFrom character words wi ↔
      wi ≤ w ∧ ∃ word, words[w - wi]? = some word ∧ word[c]? = some character := by
  induction words generalizing wi with
  | nil => simp [occurrencesFrom]
  | cons word rest ih =>
    unfold occurrencesFrom
    rw [List.mem_append, mem_occurrencesInWord, ih]
    constructor
    · rintro (⟨h1, _, h3⟩ | ⟨h1, word1, h2, h3⟩)
      · subst h1
        exact ⟨le_refl _, word, by simp, by simpa using h3⟩
      · refine ⟨by omega, word1, ?_, h3⟩
        have : w - wi = (w - (wi + 1)) + 1 := by omega
        rw [this]; simpa using h2
    · rintro ⟨h1, word1, h2, h3⟩
      by_cases hw : w = wi
      · left
        subst hw
        simp at h2
        subst h2
        exact ⟨rfl, Nat.zero_le _, by simpa using h3⟩
      · right
        refine ⟨by omega, word1, ?_, h3⟩
        have : w - wi = (w - (wi + 1)) + 1 := by omega
        rw [this] at h2; simpa using h2

theorem mem_occurrences (words : List (List Nat)) (character w c : Nat) :
    (w, c) ∈ occurrences words character ↔
      ∃ word, words[w]? = some word ∧ word[c]? = some character := by
  simp [occurrences, mem_occurrencesFrom]

theorem scanChars_hit (character wi : Nat) (chars : List Nat) (ci n : Nat) (fo : Bool)
    (h1 : 1 ≤ n) (h2 : n ≤ (occurrencesInWord character wi chars ci).length) :
    ∃ c, (occurrencesInWord character wi chars ci)[n - 1]? = some (wi, c) ∧
      scanChars character chars ⟨wi, ci, n, false, fo⟩ = ⟨wi, c, 1, true, true⟩ := by
  induction chars generalizing ci n fo with
  | nil => simp [occurrencesInWord] at h2; omega
  | cons ch rest ih =>
    unfold occurrencesInWord at h2 ⊢
    unfold scanChars
    by_cases hch : ch = character
    · simp only [if_pos hch] at h2 ⊢
      by_cases hn : n = 1
      · subst hn
        exact ⟨ci, by simp, by simp⟩
      · simp only [List.length_cons] at h2
        obtain ⟨c, hc1, hc2⟩ := ih (ci + 1) (n - 1) true (by omega) (by omega)
        refine ⟨c, ?_, ?_⟩
        · have : n - 1 = (n - 1 - 1) + 1 := by omega
          rw [this]; simpa using hc1
        · simpa [hn] using hc2
    · simp only [if_neg hch] at h2 ⊢
      exact ih (ci + 1) n fo h1 h2

theorem scanChars_miss (character wi : Nat) (chars : List Nat) (ci n : Nat) (fo : Bool)
    (h2 : (occurrencesInWord character wi chars ci).length < n) :
    scanChars character chars ⟨wi, ci, n, false, fo⟩ =
      ⟨wi, ci + chars.length, n - (occurrencesInWord character wi chars ci).length, false,
        fo || decide (0 < (occurrencesInWord character wi chars ci).length)⟩ := by
  induction chars generalizing ci n fo with
  | nil => simp [occurrencesInWord, scanChars]
  | cons ch rest ih =>
    unfold occurrencesInWord at h2 ⊢
    unfold scanChars
    by_cases hch : ch = character
    · simp only [if_pos hch] at h2 ⊢
      simp only [List.length_cons] at h2 ⊢
      have hn : n ≠ 1 := by omega
      simp only [hn, if_false]
      rw [ih (ci + 1) (n - 1) true (by omega)]
      simp
      omega
    · simp only [if_neg hch] at h2 ⊢
      rw [ih (ci + 1) n fo h2]
      simp
      omega

theorem scanWords_hit (character : Nat) (words : List (List Nat)) (wi ci n : Nat) (fo : Bool)
    (h1 : 1 ≤ n) (h2 : n ≤ (occurrencesFrom character words wi).length) :
    ∃ w c, (occurrencesFrom character words wi)[n - 1]? = some (w, c) ∧
      scanWords character words ⟨wi, ci, n, false, fo⟩ = ⟨w, c, 1, true, true⟩ := by
  induction words generalizing wi ci n fo with
  | nil => simp [occurrencesFrom] at h2; omega
  | cons word rest ih =>
    unfold occurrencesFrom at h2 ⊢
    unfold scanWords
    simp only [List.length_append] at h2
    by_cases hn : n ≤ (occurrencesInWord character wi word 0).length
    · obtain ⟨c, hc1, hc2⟩ := scanChars_hit character wi word 0 n fo h1 hn
      refine ⟨wi, c, ?_, ?_⟩
      · rw [List.getElem?_append_left (by omega)]; exact hc1
      · simp [hc2]
    · have hmiss := scanChars_miss character wi word 0 n fo (by omega)
      obtain ⟨w, c, hc1, hc2⟩ := ih (wi + 1) (0 + word.length)
        (n - (occurrencesInWord character wi word 0).length)
        (fo || decide (0 < (occurrencesInWord character wi word 0).length)) (by omega) (by omega)
      refine ⟨w, c, ?_, ?_⟩
      · rw [List.getElem?_append_right (by omega)]
        have : n - 1 - (occurrencesInWord character wi word 0).length
            = n - (occurrencesInWord character wi word 0).length - 1 := by omega
        rw [this]; exact hc1
      · simp only [hmiss]
        simpa using hc2

theorem scanWords_miss (character : Nat) (words : List (List Nat)) (wi ci n : Nat) (fo : Bool)
    (h2 : (occurrencesFrom character words wi).length < n) :
    ∃ ci1, scanWords character words ⟨wi, ci, n, false, fo⟩ =
      ⟨wi + words.length, ci1, n - (occurrencesFrom character words wi).length, false,
        fo || decide (0 < (occurrencesFrom character words wi).length)⟩ := by
  induction words generalizing wi ci n fo with
  | nil => exact ⟨ci, by simp [occurrencesFrom, scanWords]⟩
  | cons word rest ih =>
    unfold occurrencesFrom at h2 ⊢
    unfold scanWords
    simp only [List.length_append] at h2 ⊢
    have hmiss := scanChars_miss character wi word 0 n fo (by omega)
    obtain ⟨ci1, h⟩ := ih (wi + 1) (0 + word.length)
      (n - (occurrencesInWord character wi word 0).length)
      (fo || decide (0 < (occurrencesInWord character wi word 0).length)) (by omega)
    refine ⟨ci1, ?_⟩
    simp only [hmiss]
    simp only [Bool.false_eq_true, if_false]
    rw [h]
    simp only [SearchState.mk.injEq, true_and, List.length_cons]
    refine ⟨by omega, by omega, ?_⟩
    rcases Nat.eq_zero_or_pos (occurrencesInWord character wi word 0).length with h0 | h0 <;>
    rcases Nat.eq_zero_or_pos (occurrencesFrom character rest (wi + 1)).length with h3 | h3 <;>
    simp [h0, h3]

/-- The `do-while` search with a character that occurs nowhere: one pass, not found. -/
theorem occurrenceSearch_absent (words : List (List Nat)) (character : Nat)
    (h0 : occurrences words character = []) (fuel wi ci n : Nat) (hn : 1 ≤ n) :
    ∃ ci1, occurrenceSearch words character (fuel + 1) ⟨wi, ci, n, false, false⟩ =
      some ⟨words.length, ci1, n, false, false⟩ := by
  unfold occurrences at h0
  obtain ⟨ci1, h⟩ := scanWords_miss character words 0 ci n false (by rw [h0]; exact hn)
  refine ⟨ci1, ?_⟩
  unfold occurrenceSearch
  simp only [h, h0]
  simp

/-- The `do-while` search with a character that occurs `k ≥ 1` times: it ends
at occurrence number `(n - 1) % k` (counted from 0) after at most
`⌈n / k⌉` passes. -/
theorem occurrenceSearch_present (words : List (List Nat)) (character : Nat)
    (hk : 0 < (occurrences words character).length) (fuel wi ci n : Nat) (fo : Bool)
    (hn : 1 ≤ n) (hfuel : n ≤ fuel * (occurrences words character).length) :
    ∃ w c, (occurrences words character)[(n - 1) % (occurrences words character).length]?
        = some (w, c) ∧
      occurrenceSearch words character fuel ⟨wi, ci, n, false, fo⟩ = some ⟨w, c, 1, true, true⟩ := by
  induction fuel generalizing wi ci n fo with
  | zero => omega
  | succ fuel ih =>
    unfold occurrenceSearch
    by_cases hle : n ≤ (occurrences words character).length
    · obtain ⟨w, c, h1, h2⟩ := scanWords_hit character words 0 ci n fo hn hle
      refine ⟨w, c, ?_, ?_⟩
      · rw [Nat.mod_eq_of_lt (by omega)]; exact h1
      · simp only [h2]; simp
    · obtain ⟨ci1, h⟩ := scanWords_miss character words 0 ci n fo (by unfold occurrences at hle; omega)
      have hk2 : 0 < (occurrencesFrom character words 0).length := hk
      obtain ⟨w, c, h1, h2⟩ := ih (0 + words.length) ci1
        (n - (occurrences words character).length) true (by omega)
        (by rw [Nat.succ_mul] at hfuel; omega)
      refine ⟨w, c, ?_, ?_⟩
      · rw [Nat.mod_eq_sub_mod (by omega)]
        have : n - 1 - (occurrences words character).length
            = n - (occurrences words character).length - 1 := by omega
        rw [this]; exact h1
      · simp only [h]
        simp only [Bool.false_eq_true, if_false, hk2, decide_True, Bool.or_true, if_true]
        exact h2

/-! ## `sprintf` and `strtol` on decimal numbers -/

theorem formatDigits_ne_nil (fuel n : Nat) : formatDigits (fuel + 1) n ≠ [] := by
  unfold formatDigits
  split <;> simp

theorem formatDigits_isdigit (fuel n : Nat) : ∀ d ∈ formatDigits fuel n, isdigit d = true := by
  induction fuel generalizing n with
  | zero => simp [formatDigits]
  | succ fuel ih =>
    unfold formatDigits
    split
    · intro d hd
      simp only [List.mem_singleton] at hd
      subst hd
      simp [isdigit]; omega
    · intro d hd
      simp only [List.mem_append, List.mem_singleton] at hd
      rcases hd with hd | hd
      · exact ih _ d hd
      · subst hd
        simp [isdigit]; omega

theorem formatUnsigned_ne_nil (n : Nat) : formatUnsigned n ≠ [] := formatDigits_ne_nil n n

theorem formatUnsigned_isdigit (n : Nat) : ∀ d ∈ formatUnsigned n, isdigit d = true :=
  formatDigits_isdigit (n + 1) n

theorem strtolDigits_formatDigits (fuel n : Nat) (h : n < fuel) (acc : Nat) (rest : List Nat) :
    strtolDigits (formatDigits fuel n ++ rest) acc =
      strtolDigits rest (acc * 10 ^ (formatDigits fuel n).length + n) := by
  induction fuel generalizing n acc rest with
  | zero => omega
  | succ fuel ih =>
    unfold formatDigits
    split
    · rename_i hlt
      have hd : isdigit (48 + n) = true := by simp [isdigit]; omega
      simp [strtolDigits, hd]
    · rename_i hge
      have hd : isdigit (48 + n % 10) = true := by simp [isdigit]; omega
      rw [List.append_assoc, ih (n / 10) (by omega)]
      simp only [List.singleton_append, strtolDigits, hd, if_true, List.length_append,
        List.length_singleton]
      congr 1
      have := Nat.div_add_mod n 10
      rw [pow_succ]
      have e : 48 + n % 10 - 48 = n % 10 := by omega
      rw [e]
      ring_nf
      omega

theorem strtolDigits_stop (rest : List Nat) (acc : Nat) (h : isdigit (rest.headD 0) = false) :
    strtolDigits rest acc = (acc, rest) := by
  cases rest with
  | nil => rfl
  | cons c t =>
    simp only [List.headD_cons] at h
    simp [strtolDigits, h]

theorem strtol_formatUnsigned (n : Nat) (rest : List Nat) (h : isdigit (rest.headD 0) = false) :
    strtol (formatUnsigned n ++ rest) = ((n : Int), rest) := by
  obtain ⟨d, t, hdt⟩ := List.exists_cons_of_ne_nil (formatUnsigned_ne_nil n)
  have hd : isdigit d = true := formatUnsigned_isdigit n d (by rw [hdt]; simp)
  have hsp : isspace d = false := by
    simp only [isdigit, isspace] at hd ⊢
    simp at hd ⊢
    omega
  have h45 : d ≠ 45 := by
    rintro rfl; simp [isdigit] at hd
  have h43 : d ≠ 43 := by
    rintro rfl; simp [isdigit] at hd
  have hval : strtolDigits (formatUnsigned n ++ rest) 0 = (n, rest) := by
    unfold formatUnsigned
    rw [strtolDigits_formatDigits (n + 1) n (by omega), strtolDigits_stop _ _ h]
    simp
  unfold strtol
  rw [hdt] at hval ⊢
  simp only [List.cons_append, List.dropWhile_cons, hsp, Bool.false_eq_true, if_false,
    List.head?_cons, Option.some.injEq, h45, h43, or_self, List.headD_cons, hd, if_true]
  rw [List.cons_append] at hval
  rw [hval]

/-! ## The layout of the ciphertext -/

theorem isspace_32 : isspace 32 = true := rfl

theorem isspace_ne_comma (m : Nat) (h : isspace m = true) : m ≠ 44 := by
  rintro rfl
  simp [isspace] at h

theorem isdigit_ne_comma (m : Nat) (h : isdigit m = true) : m ≠ 44 := by
  rintro rfl
  simp [isdigit] at h

theorem encipherCharacter_eq (fuel : Nat) (words : List (List Nat)) (m r : Nat)
    (hfuel : 10 ≤ fuel) :
    encipherCharacter fuel words m r = some (coordinateToken words m r ++ [44]) := by
  unfold encipherCharacter coordinateToken searchStart
  rcases Nat.eq_zero_or_pos (occurrences words (tolower m)).length with h0 | hk
  · have hnil : occurrences words (tolower m) = [] := List.length_eq_zero.mp h0
    obtain ⟨f, rfl⟩ : ∃ f, fuel = f + 1 := ⟨fuel - 1, by omega⟩
    obtain ⟨ci1, h⟩ := occurrenceSearch_absent words (tolower m) hnil f 0 0 (r % 10 + 1) (by omega)
    rw [h, hnil]
    simp
  · have hmul : fuel ≤ fuel * (occurrences words (tolower m)).length :=
      Nat.le_mul_of_pos_right _ hk
    obtain ⟨w, c, h1, h2⟩ := occurrenceSearch_present words (tolower m) hk fuel 0 0
      (r % 10 + 1) false (by omega) (by omega)
    rw [h2]
    simp only [Nat.add_sub_cancel] at h1
    rw [h1]
    simp

theorem coordinateToken_cases (words : List (List Nat)) (m r : Nat) :
    (coordinateToken words m r = [35] ∧ occurrences words (tolower m) = []) ∨
    ∃ w c, (w, c) ∈ occurrences words (tolower m) ∧
      coordinateToken words m r = formatUnsigned w ++ [44] ++ formatUnsigned c := by
  unfold coordinateToken
  rcases Nat.eq_zero_or_pos (occurrences words (tolower m)).length with h0 | hk
  · left
    have hnil : occurrences words (tolower m) = [] := List.length_eq_zero.mp h0
    rw [hnil]; simp
  · right
    have hlt : (r % 10) % (occurrences words (tolower m)).length
        < (occurrences words (tolower m)).length := Nat.mod_lt _ hk
    rw [List.getElem?_eq_getElem hlt]
    exact ⟨_, _, List.getElem_mem hlt, rfl⟩

/-- A token is not empty, starts with a digit or `#` and ends with a digit or `#`. -/
theorem coordinateToken_shape (words : List (List Nat)) (m r : Nat) :
    ∃ a t b, coordinateToken words m r = a :: t ∧
      (isdigit a = true ∨ a = 35) ∧
      (coordinateToken words m r).getLast? = some b ∧ (isdigit b = true ∨ b = 35) := by
  rcases coordinateToken_cases words m r with ⟨h, _⟩ | ⟨w, c, _, h⟩
  · exact ⟨35, [], 35, h, Or.inr rfl, by rw [h]; rfl, Or.inr rfl⟩
  · obtain ⟨a, t, hat⟩ := List.exists_cons_of_ne_nil (formatUnsigned_ne_nil w)
    have ha : isdigit a = true := formatUnsigned_isdigit w a (by rw [hat]; simp)
    have hne := formatUnsigned_ne_nil c
    have hlast : (formatUnsigned c).getLast hne ∈ formatUnsigned c := List.getLast_mem hne
    refine ⟨a, t ++ [44] ++ formatUnsigned c, (formatUnsigned c).getLast hne, ?_, Or.inl ha, ?_,
      Or.inl (formatUnsigned_isdigit c _ hlast)⟩
    · rw [h, hat]; simp
    · rw [h, List.getLast?_append_of_ne_nil _ hne, List.getLast?_eq_getLast]

theorem coordinateToken_getLast_ne_comma (words : List (List Nat)) (m r : Nat) (l : List Nat) :
    (l ++ coordinateToken words m r).getLast? ≠ some 44 := by
  obtain ⟨a, t, b, h1, _, h3, h4⟩ := coordinateToken_shape words m r
  have hne : coordinateToken words m r ≠ [] := by rw [h1]; simp
  rw [List.getLast?_append_of_ne_nil _ hne, h3]
  rcases h4 with h4 | h4
  · intro h
    simp only [Option.some.injEq] at h
    exact isdigit_ne_comma b h4 h
  · subst h4; simp

theorem encipherLoop_layout (fuel : Nat) (words : List (List Nat)) (rnd : Nat → Nat)
    (hfuel : 10 ≤ fuel) (message : List Nat) (calls : Nat) (B : List Nat) (pending : Bool)
    (hB : B.getLast? ≠ some 44) :
    encipherLoop fuel words rnd message calls (B ++ (if pending then [44] else [])) =
      some (B ++ pendingLayout words rnd message calls pending) := by
  induction message generalizing calls B pending with
  | nil => simp [encipherLoop, pendingLayout]
  | cons m rest ih =>
    unfold encipherLoop pendingLayout
    by_cases hm : isspace m = true
    · simp only [hm, if_true]
      have hstrip : (if (B ++ (if pending then [44] else [])).getLast? = some 44
          then (B ++ (if pending then [44] else [])).dropLast
          else B ++ (if pending then [44] else [])) = B := by
        cases pending
        · simp [hB]
        · simp
      rw [hstrip]
      have hB2 : (B ++ [m]).getLast? ≠ some 44 := by
        rw [List.getLast?_append_of_ne_nil _ (List.cons_ne_nil _ _)]
        simp only [List.getLast?_singleton, ne_eq, Option.some.injEq]
        exact isspace_ne_comma m hm
      have := ih calls (B ++ [m]) false hB2
      simp only [Bool.false_eq_true, if_false, List.append_nil] at this
      rw [this]
      simp
    · simp only [hm, Bool.false_eq_true, if_false]
      rw [encipherCharacter_eq fuel words m (rnd calls) hfuel]
      simp only
      have hB2 : (B ++ (if pending then [44] else []) ++ coordinateToken words m (rnd calls)).getLast?
          ≠ some 44 := coordinateToken_getLast_ne_comma words m (rnd calls) _
      have := ih (calls + 1) (B ++ (if pending then [44] else []) ++ coordinateToken words m (rnd calls))
        true hB2
      simp only [if_true, List.append_assoc] at this ⊢
      exact this

theorem pendingLayout_true (words : List (List Nat)) (rnd : Nat → Nat) (m : Nat)
    (rest : List Nat) (calls : Nat) :
    pendingLayout words rnd (m :: rest) calls true =
      (if isspace m then [] else [44]) ++ pendingLayout words rnd (m :: rest) calls false := by
  unfold pendingLayout
  by_cases hm : isspace m = true <;> simp [hm]

theorem pendingLayout_false (words : List (List Nat)) (rnd : Nat → Nat) (message : List Nat)
    (calls : Nat) :
    pendingLayout words rnd message calls false =
      joinTokens words rnd message calls ++
        (if isspace (message.getLast?.getD 32) then [] else [44]) := by
  induction message generalizing calls with
  | nil => simp [pendingLayout, joinTokens, isspace_32]
  | cons m rest ih =>
    cases rest with
    | nil =>
      unfold pendingLayout joinTokens
      by_cases hm : isspace m = true
      · simp [hm, pendingLayout, joinTokens]
      · simp [hm, pendingLayout, joinTokens, isspace_32]
    | cons m2 rest2 =>
      have hlast : (m :: m2 :: rest2).getLast?.getD 32 = (m2 :: rest2).getLast?.getD 32 := by
        simp [List.getLast?_cons_cons]
      rw [hlast]
      unfold pendingLayout joinTokens
      by_cases hm : isspace m = true
      · simp only [hm, if_true]
        rw [ih calls]
        simp
      · simp only [hm, Bool.false_eq_true, if_false]
        rw [pendingLayout_true, ih (calls + 1)]
        simp

theorem joinTokens_append_space (words : List (List Nat)) (rnd : Nat → Nat) (xs : List Nat)
    (w : Nat) (hw : isspace w = true) (calls : Nat) :
    joinTokens words rnd (xs ++ [w]) calls = joinTokens words rnd xs calls ++ [w] := by
  induction xs generalizing calls with
  | nil => simp [joinTokens, hw]
  | cons m rest ih =>
    simp only [List.cons_append]
    unfold joinTokens
    by_cases hm : isspace m = true
    · simp [hm, ih]
    · simp only [hm, Bool.false_eq_true, if_false]
      rw [ih (calls + 1)]
      have hh : isspace ((rest ++ [w]).headD 32) = isspace (rest.headD 32) := by
        cases rest with
        | nil => simp [hw, isspace_32]
        | cons a t => simp
      rw [hh]
      simp

theorem pendingLayout_dropLast (words : List (List Nat)) (rnd : Nat → Nat) (message : List Nat) :
    (pendingLayout words rnd message 0 false).dropLast =
      joinTokens words rnd (dropFinalSpace message) 0 := by
  rw [pendingLayout_false]
  unfold dropFinalSpace
  rcases List.eq_nil_or_concat message with h | ⟨xs, w, h⟩
  · subst h; simp [joinTokens, isspace_32]
  · subst h
    by_cases hw : isspace w = true
    · simp [hw, joinTokens_append_space]
    · simp [hw]

/-- The whole call: with fuel for ten passes per search, `encipherMessage`
returns the layout `joinTokens` of the message without a final white-space
byte. -/
theorem encipherMessage_eq (fuel : Nat) (key : CipherKeyFile) (message : List Nat)
    (rnd : Nat → Nat) (hfuel : 10 ≤ fuel) (hb : key.buffer.isSome = true)
    (hw : key.wordArray.isSome = true) :
    encipherMessage fuel (some key) (some message) rnd =
      some (.success (joinTokens (wordTable key) rnd (dropFinalSpace message) 0)) := by
  unfold encipherMessage
  have h := encipherLoop_layout fuel (wordTable key) rnd hfuel message 0 [] false (by simp)
  simp only [Bool.false_eq_true, if_false, List.append_nil, List.nil_append] at h
  simp only [Option.isNone_iff_eq_none, Option.isSome_iff_exists] at *
  obtain ⟨b, hb⟩ := hb
  obtain ⟨a, hw⟩ := hw
  simp [hb, hw, h, pendingLayout_dropLast]

/-! ## Reading the key -/

theorem getElem?_of_takeWhile {α : Type} (p : α → Bool) (l : List α) (i : Nat) (x : α)
    (h : (l.takeWhile p)[i]? = some x) : l[i]? = some x := by
  induction l generalizing i with
  | nil => simp at h
  | cons a t ih =>
    rw [List.takeWhile_cons] at h
    split at h
    · cases i with
      | zero => simpa using h
      | succ j => simp only [List.getElem?_cons_succ] at h ⊢; exact ih j h
    · simp at h

theorem keyByte_of_wordAt (key : CipherKeyFile) (w c x : Nat)
    (h : (wordAt key w)[c]? = some x) : keyByte key (w : Int) (c : Int) = some x := by
  unfold wordAt at h
  unfold keyByte
  have hneg : ¬ ((w : Int) < 0 ∨ (c : Int) < 0) := by omega
  simp only [hneg, if_false, Int.toNat_ofNat]
  cases hA : key.wordArray with
  | none => simp [hA] at h
  | some arr =>
    cases hBf : key.buffer with
    | none => simp [hA, hBf] at h
    | some buffer =>
      simp only [hA, hBf, List.get?_eq_getElem?] at h ⊢
      cases hE : arr[w]? with
      | none => simp [hE] at h
      | some e =>
        cases e with
        | none => simp [hE] at h
        | some off =>
          simp only [hE] at h ⊢
          unfold cstringAt at h
          have := getElem?_of_takeWhile _ _ _ _ h
          simpa [List.getElem?_drop] using this

theorem wordTable_getElem? (key : CipherKeyFile) (w : Nat) (word : List Nat)
    (h : (wordTable key)[w]? = some word) : w < key.wordCount ∧ word = wordAt key w := by
  unfold wordTable at h
  rw [List.getElem?_map] at h
  by_cases hw : w < key.wordCount
  · rw [List.getElem?_range hw] at h
    simp at h
    exact ⟨hw, h.symm⟩
  · rw [List.getElem?_eq_none (by simpa using hw)] at h
    simp at h

theorem wordTable_length (key : CipherKeyFile) : (wordTable key).length = key.wordCount := by
  simp [wordTable]

/-- An occurrence in the word table is a valid coordinate of the key. -/
theorem occurrence_valid (key : CipherKeyFile) (character w c : Nat)
    (h : (w, c) ∈ occurrences (wordTable key) character) :
    w < key.wordCount ∧ (wordAt key w)[c]? = some character := by
  rw [mem_occurrences] at h
  obtain ⟨word, h1, h2⟩ := h
  obtain ⟨hw, rfl⟩ := wordTable_getElem? key w word h1
  exact ⟨hw, h2⟩

theorem occurrences_eq_nil_iff (words : List (List Nat)) (character : Nat) :
    occurrences words character = [] ↔ ∀ word ∈ words, character ∉ word := by
  constructor
  · intro h word hword hmem
    obtain ⟨w, hw⟩ := List.getElem?_of_mem hword
    obtain ⟨c, hc⟩ := List.getElem?_of_mem hmem
    have : (w, c) ∈ occurrences words character := (mem_occurrences _ _ _ _).2 ⟨word, hw, hc⟩
    rw [h] at this
    simp at this
  · intro h
    rw [List.eq_nil_iff_forall_not_mem]
    rintro ⟨w, c⟩ hmem
    obtain ⟨word, h1, h2⟩ := (mem_occurrences _ _ _ _).1 hmem
    exact h word (List.getElem?_mem h1) (List.getElem?_mem h2)

/-! ## The decode loop on a ciphertext of `encipherMessage` -/

theorem isdigit_facts (a : Nat) (h : isdigit a = true) :
    a ≠ 0 ∧ isspace a = false ∧ a ≠ 35 ∧ a ≠ 44 := by
  simp only [isdigit, isspace] at h ⊢
  simp at h ⊢
  omega

theorem isspace_facts (a : Nat) (h : isspace a = true) :
    a ≠ 0 ∧ isdigit a = false ∧ a ≠ 35 ∧ a ≠ 44 := by
  simp only [isdigit, isspace] at h ⊢
  simp at h ⊢
  omega

theorem decipherLoop_space (key : CipherKeyFile) (f c : Nat) (itr printed : List Nat)
    (h : isspace c = true) :
    decipherLoop key (f + 1) (c :: itr) printed =
      decipherLoop key f itr (flushAtEnd itr (printed ++ [c])) := by
  obtain ⟨h0, _, _, _⟩ := isspace_facts c h
  simp [decipherLoop, h0, h]

theorem decipherLoop_hash (key : CipherKeyFile) (f : Nat) (itr printed : List Nat) :
    decipherLoop key (f + 1) (35 :: itr) printed =
      decipherLoop key f (if itr.headD 0 = 44 then itr.tail else itr)
        (flushAtEnd (if itr.headD 0 = 44 then itr.tail else itr) (printed ++ [35])) := by
  have : isspace 35 = false := rfl
  simp [decipherLoop, this]

theorem decipherLoop_coordinate (key : CipherKeyFile) (f w c b : Nat) (rest printed : List Nat)
    (hb : keyByte key (w : Int) (c : Int) = some b) (hrest : isdigit (rest.headD 0) = false) :
    decipherLoop key (f + 1) (formatUnsigned w ++ [44] ++ formatUnsigned c ++ rest) printed =
      decipherLoop key f (if rest.headD 0 = 44 then rest.tail else rest)
        (flushAtEnd (if rest.headD 0 = 44 then rest.tail else rest) (printed ++ [b])) := by
  obtain ⟨a, t, hat⟩ := List.exists_cons_of_ne_nil (formatUnsigned_ne_nil w)
  have ha : isdigit a = true := formatUnsigned_isdigit w a (by rw [hat]; simp)
  obtain ⟨h0, hsp, h35, _⟩ := isdigit_facts a ha
  have e1 : formatUnsigned w ++ [44] ++ formatUnsigned c ++ rest
      = formatUnsigned w ++ (44 :: (formatUnsigned c ++ rest)) := by simp
  have s1 : strtol (formatUnsigned w ++ (44 :: (formatUnsigned c ++ rest)))
      = ((w : Int), 44 :: (formatUnsigned c ++ rest)) := strtol_formatUnsigned w _ rfl
  have s2 : strtol (formatUnsigned c ++ rest) = ((c : Int), rest) :=
    strtol_formatUnsigned c rest hrest
  rw [e1]
  have hhead : (formatUnsigned w ++ (44 :: (formatUnsigned c ++ rest))).headD 0 = a := by
    rw [hat]; simp
  simp only [decipherLoop, hhead, h0, if_false, hsp, Bool.false_eq_true, h35, ha, if_true, s1, List.tail_cons,
    s2, hb]

theorem separator_skip (words : List (List Nat)) (rnd : Nat → Nat) (rest : List Nat)
    (calls : Nat) :
    isdigit (((if isspace (rest.headD 32) then [] else [44]) ++
        joinTokens words rnd rest calls).headD 0) = false ∧
    (if ((if isspace (rest.headD 32) then [] else [44]) ++
        joinTokens words rnd rest calls).headD 0 = 44
      then ((if isspace (rest.headD 32) then [] else [44]) ++
        joinTokens words rnd rest calls).tail
      else (if isspace (rest.headD 32) then [] else [44]) ++ joinTokens words rnd rest calls)
      = joinTokens words rnd rest calls := by
  cases rest with
  | nil => simp [joinTokens, isspace_32, isdigit]
  | cons m t =>
    by_cases hm : isspace m = true
    · obtain ⟨_, hd, _, h44⟩ := isspace_facts m hm
      simp [joinTokens, hm, hd, h44]
    · simp [hm, isdigit]

theorem joinTokens_flush (words : List (List Nat)) (rnd : Nat → Nat) (m : Nat) (rest : List Nat)
    (calls : Nat) (printed : List Nat) :
    flushAtEnd (joinTokens words rnd (m :: rest) calls) printed = printed := by
  unfold flushAtEnd joinTokens
  by_cases hm : isspace m = true
  · obtain ⟨h0, _, _, _⟩ := isspace_facts m hm
    simp [hm, h0]
  · obtain ⟨a, t, b, h1, h2, _, _⟩ := coordinateToken_shape words m (rnd calls)
    have ha : a ≠ 0 := by
      rcases h2 with h2 | h2
      · exact (isdigit_facts a h2).1
      · subst h2; decide
    simp [hm, h1, ha]

/-- The decode loop, started on the layout `joinTokens` of a message, prints
the decoded bytes of the message and then the two newlines. -/
theorem decipherLoop_joinTokens (key : CipherKeyFile) (rnd : Nat → Nat) (message : List Nat)
    (calls fuel : Nat) (printed : List Nat) (hfuel : message.length + 1 ≤ fuel) :
    decipherLoop key fuel (joinTokens (wordTable key) rnd message calls)
        (flushAtEnd (joinTokens (wordTable key) rnd message calls) printed) =
      .finished (printed ++ message.map (decodedByte (wordTable key)) ++ [10, 10]) := by
  induction message generalizing calls fuel printed with
  | nil =>
    obtain ⟨f, rfl⟩ : ∃ f, fuel = f + 1 := ⟨fuel - 1, by simp at hfuel; omega⟩
    simp [joinTokens, flushAtEnd, decipherLoop]
  | cons m rest ih =>
    obtain ⟨f, rfl⟩ : ∃ f, fuel = f + 1 := ⟨fuel - 1, by simp at hfuel; omega⟩
    have hf : rest.length + 1 ≤ f := by simp at hfuel; omega
    rw [joinTokens_flush]
    unfold joinTokens
    by_cases hm : isspace m = true
    · simp only [hm, if_true]
      rw [decipherLoop_space key f m _ _ hm, ih calls f (printed ++ [m]) hf]
      simp [decodedByte, hm]
    · simp only [hm, Bool.false_eq_true, if_false]
      obtain ⟨hskip1, hskip2⟩ := separator_skip (wordTable key) rnd rest (calls + 1)
      rcases coordinateToken_cases (wordTable key) m (rnd calls) with ⟨htok, hnil⟩ | ⟨w, c, hmem, htok⟩
      · rw [htok]
        simp only [List.append_assoc, List.singleton_append, List.cons_append, List.nil_append]
        rw [decipherLoop_hash, hskip2, ih (calls + 1) f (printed ++ [35]) hf]
        simp [decodedByte, hm, hnil]
      · rw [htok]
        obtain ⟨_, hword⟩ := occurrence_valid key (tolower m) w c hmem
        have hb := keyByte_of_wordAt key w c (tolower m) hword
        have hne : occurrences (wordTable key) (tolower m) ≠ [] := List.ne_nil_of_mem hmem
        rw [List.append_assoc (formatUnsigned w ++ [44] ++ formatUnsigned c),
          decipherLoop_coordinate key f w c (tolower m) _ printed hb hskip1, hskip2,
          ih (calls + 1) f (printed ++ [tolower m]) hf]
        simp [decodedByte, hm, hne]

/-! ## Properties of the layout -/

theorem joinTokens_ne_nil (words : List (List Nat)) (rnd : Nat → Nat) (m : Nat) (rest : List Nat)
    (calls : Nat) : joinTokens words rnd (m :: rest) calls ≠ [] := by
  unfold joinTokens
  by_cases hm : isspace m = true
  · simp [hm]
  · obtain ⟨a, t, b, h1, _, _, _⟩ := coordinateToken_shape words m (rnd calls)
    simp [hm, h1]

theorem joinTokens_getLast (words : List (List Nat)) (rnd : Nat → Nat) (message : List Nat)
    (calls : Nat) : (joinTokens words rnd message calls).getLast? ≠ some 44 := by
  induction message generalizing calls with
  | nil => simp [joinTokens]
  | cons m rest ih =>
    cases rest with
    | nil =>
      unfold joinTokens
      by_cases hm : isspace m = true
      · have := isspace_ne_comma m hm
        simp [hm, joinTokens, this]
      · have := coordinateToken_getLast_ne_comma words m (rnd calls) []
        simpa [hm, joinTokens, isspace_32] using this
    | cons m2 rest2 =>
      unfold joinTokens
      by_cases hm : isspace m = true
      · simp only [hm, if_true]
        rw [← List.singleton_append,
          List.getLast?_append_of_ne_nil _ (joinTokens_ne_nil words rnd m2 rest2 calls)]
        exact ih calls
      · simp only [hm, Bool.false_eq_true, if_false]
        rw [List.getLast?_append_of_ne_nil _ (joinTokens_ne_nil words rnd m2 rest2 (calls + 1))]
        exact ih (calls + 1)



theorem chain_of_no_comma (l : List Nat) (h : ∀ x ∈ l, x ≠ 44) : l.Chain' afterComma := by
  induction l with
  | nil => exact List.chain'_nil
  | cons a t ih =>
    rw [List.chain'_cons']
    refine ⟨?_, ih (fun x hx => h x (List.mem_cons_of_mem _ hx))⟩
    intro y _ ha
    exact absurd ha (h a (List.mem_cons_self _ _))

theorem formatUnsigned_chain (n : Nat) : (formatUnsigned n).Chain' afterComma :=
  chain_of_no_comma _ (fun x hx => isdigit_ne_comma x (formatUnsigned_isdigit n x hx))

theorem coordinateToken_chain (words : List (List Nat)) (m r : Nat) :
    (coordinateToken words m r).Chain' afterComma := by
  rcases coordinateToken_cases words m r with ⟨h, _⟩ | ⟨w, c, _, h⟩
  · rw [h]; exact List.chain'_singleton _
  · rw [h, List.append_assoc, List.chain'_append]
    refine ⟨formatUnsigned_chain w, ?_, ?_⟩
    · rw [List.singleton_append, List.chain'_cons']
      refine ⟨?_, formatUnsigned_chain c⟩
      intro y hy _
      exact Or.inl (formatUnsigned_isdigit c y (List.mem_of_mem_head? hy))
    · intro x hx y _ hx44
      exact absurd hx44 (isdigit_ne_comma x (formatUnsigned_isdigit w x (List.mem_of_mem_getLast? hx)))

theorem joinTokens_head (words : List (List Nat)) (rnd : Nat → Nat) (m : Nat) (rest : List Nat)
    (calls : Nat) (hm : isspace m = false) :
    ∀ y ∈ (joinTokens words rnd (m :: rest) calls).head?, isdigit y = true ∨ y = 35 := by
  unfold joinTokens
  obtain ⟨a, t, b, h1, h2, _, _⟩ := coordinateToken_shape words m (rnd calls)
  simp only [hm, Bool.false_eq_true, if_false, h1]
  intro y hy
  simp at hy
  subst hy
  exact h2

theorem joinTokens_chain (words : List (List Nat)) (rnd : Nat → Nat) (message : List Nat)
    (calls : Nat) : (joinTokens words rnd message calls).Chain' afterComma := by
  induction message generalizing calls with
  | nil => simp [joinTokens]
  | cons m rest ih =>
    unfold joinTokens
    by_cases hm : isspace m = true
    · simp only [hm, if_true]
      rw [List.chain'_cons']
      refine ⟨?_, ih calls⟩
      intro y _ h44
      exact absurd h44 (isspace_ne_comma m hm)
    · simp only [hm, Bool.false_eq_true, if_false]
      have htail : ((if isspace (rest.headD 32) then [] else [44]) ++
          joinTokens words rnd rest (calls + 1)).Chain' afterComma := by
        by_cases hsep : isspace (rest.headD 32) = true
        · rw [if_pos hsep, List.nil_append]
          exact ih (calls + 1)
        · simp only [hsep, Bool.false_eq_true, if_false, List.singleton_append]
          rw [List.chain'_cons']
          refine ⟨?_, ih (calls + 1)⟩
          cases rest with
          | nil => simp [isspace_32] at hsep
          | cons m2 rest2 =>
            simp only [List.headD_cons] at hsep
            intro y hy _
            exact joinTokens_head words rnd m2 rest2 (calls + 1) (by simpa using hsep) y hy
      rw [List.append_assoc, List.chain'_append]
      refine ⟨coordinateToken_chain words m (rnd calls), htail, ?_⟩
      intro x hx y _ hx44
      subst hx44
      exact absurd hx (by simpa using coordinateToken_getLast_ne_comma words m (rnd calls) [])

theorem joinTokens_consecutive (words : List (List Nat)) (rnd : Nat → Nat)
    (pre : List Nat) (c1 c2 : Nat) (post : List Nat) (calls : Nat)
    (h1 : isspace c1 = false) (h2 : isspace c2 = false) :
    ∃ A B, joinTokens words rnd (pre ++ c1 :: c2 :: post) calls =
      A ++ coordinateToken words c1 (rnd (calls + (pre.filter (fun m => !isspace m)).length)) ++
        [44] ++
        coordinateToken words c2 (rnd (calls + (pre.filter (fun m => !isspace m)).length + 1)) ++
        B := by
  induction pre generalizing calls with
  | nil =>
    refine ⟨[], (if isspace (post.headD 32) then [] else [44]) ++
      joinTokens words rnd post (calls + 1 + 1), ?_⟩
    simp [joinTokens, h1, h2]
  | cons p pre ih =>
    simp only [List.cons_append]
    unfold joinTokens
    by_cases hp : isspace p = true
    · obtain ⟨A, B, h⟩ := ih calls
      exact ⟨p :: A, B, by simp [hp, h]⟩
    · obtain ⟨A, B, h⟩ := ih (calls + 1)
      refine ⟨coordinateToken words p (rnd calls) ++
        (if isspace ((pre ++ c1 :: c2 :: post).headD 32) then [] else [44]) ++ A, B, ?_⟩
      have e : calls + 1 + (pre.filter (fun m => !isspace m)).length
          = calls + ((pre.filter (fun m => !isspace m)).length + 1) := by omega
      rw [e] at h
      simp [hp, h, Nat.add_assoc]

theorem dropFinalSpace_consecutive (pre : List Nat) (c1 c2 : Nat) (post : List Nat)
    (h2 : isspace c2 = false) :
    ∃ post1, dropFinalSpace (pre ++ c1 :: c2 :: post) = pre ++ c1 :: c2 :: post1 := by
  unfold dropFinalSpace
  split
  · rename_i h
    rcases List.eq_nil_or_concat post with hp | ⟨xs, w, hp⟩
    · subst hp
      simp [h2] at h
    · subst hp
      refine ⟨xs, ?_⟩
      have : pre ++ c1 :: c2 :: xs.concat w = (pre ++ c1 :: c2 :: xs) ++ [w] := by simp
      rw [this, List.dropLast_concat]
  · exact ⟨post, rfl⟩

/-! ## Occurrences are listed once -/

theorem occurrencesInWord_nodup (character wi : Nat) (chars : List Nat) (ci : Nat) :
    (occurrencesInWord character wi chars ci).Nodup := by
  induction chars generalizing ci with
  | nil => simp [occurrencesInWord]
  | cons ch rest ih =>
    unfold occurrencesInWord
    split
    · rw [List.nodup_cons]
      refine ⟨?_, ih (ci + 1)⟩
      intro hmem
      have := (mem_occurrencesInWord character wi rest (ci + 1) wi ci).1 hmem
      omega
    · exact ih (ci + 1)

theorem occurrencesFrom_nodup (character : Nat) (words : List (List Nat)) (wi : Nat) :
    (occurrencesFrom character words wi).Nodup := by
  induction words generalizing wi with
  | nil => simp [occurrencesFrom]
  | cons word rest ih =>
    unfold occurrencesFrom
    rw [List.nodup_append]
    refine ⟨occurrencesInWord_nodup character wi word 0, ih (wi + 1), ?_⟩
    rintro ⟨w, c⟩ h1 h2
    have a := (mem_occurrencesInWord character wi word 0 w c).1 h1
    have b := (mem_occurrencesFrom character rest (wi + 1) w c).1 h2
    omega

theorem occurrences_nodup (words : List (List Nat)) (character : Nat) :
    (occurrences words character).Nodup := occurrencesFrom_nodup character words 0

theorem nodup_getElem?_inj {α : Type} (l : List α) (hl : l.Nodup) (i j : Nat) (x : α)
    (hi : l[i]? = some x) (hj : l[j]? = some x) : i = j := by
  obtain ⟨h1, e1⟩ := List.getElem?_eq_some.1 hi
  obtain ⟨h2, e2⟩ := List.getElem?_eq_some.1 hj
  exact (@List.Nodup.getElem_inj_iff _ l hl i h1 j h2).1 (e1.trans e2.symm)

theorem pred_mod_eq_pred_iff (k N : Nat) (hk : 1 ≤ k) (hN : 1 ≤ N) :
    (N - 1) % k = k - 1 ↔ k ∣ N := by
  constructor
  · intro h
    have hdiv := Nat.div_add_mod (N - 1) k
    rw [h] at hdiv
    refine ⟨(N - 1) / k + 1, ?_⟩
    rw [Nat.mul_add, Nat.mul_one]
    omega
  · rintro ⟨t, rfl⟩
    have ht : 1 ≤ t := by
      rcases Nat.eq_zero_or_pos t with h | h
      · subst h; simp at hN
      · exact h
    obtain ⟨s, rfl⟩ : ∃ s, t = s + 1 := ⟨t - 1, by omega⟩
    have e : k * (s + 1) - 1 = (k - 1) + k * s := by
      rw [Nat.mul_add, Nat.mul_one]; omega
    rw [e, Nat.add_mul_mod_self_left, Nat.mod_eq_of_lt (by omega)]

/-! ## Claims about `encipherMessage` and the decode loop -/

theorem tolower_of_isspace (m : Nat) (h : isspace m = true) : tolower m = m := by
  simp only [isspace] at h
  simp at h
  unfold tolower
  rw [if_neg (by omega)]

theorem dropFinalSpace_eq_self (message : List Nat)
    (h : message.getLast?.map isspace ≠ some true) : dropFinalSpace message = message := by
  unfold dropFinalSpace
  rw [if_neg h]

/-- C1 (counterexample): with the key `a` and the plaintext `a` the ciphertext is
`0,0` and the decode loop prints `a` followed by two newlines, which is not
`lowercase(plaintext)`. -/
theorem roundtrip_counterexample :
    readCipherKey 10 (bytes "a") = some (some keyA) ∧
    encipherMessage 10 (some keyA) (some (bytes "a"))
      (fun _ => 0) = some (.success (bytes "0,0")) ∧
    decipher 10 keyA (bytes "0,0") = .finished (bytes "a\n\n") ∧
    bytes "a\n\n" ≠ (bytes "a").map tolower := by
  decide

/-- C1 (amended): for every key file with buffer and word table, every plaintext
that does not end in white space and each of whose other bytes, lower-cased,
stands in some word, and every `rand()` stream, `encipherMessage` succeeds and
the decode loop run on its ciphertext terminates and prints the lower-cased
plaintext followed by the newline flush: two newlines, or one when the
plaintext is empty. -/
theorem roundtrip_lowercase_then_flush (key : CipherKeyFile) (message : List Nat)
    (rnd : Nat → Nat) (fuelE fuelD : Nat)
    (hb : key.buffer.isSome = true) (hw : key.wordArray.isSome = true)
    (hlast : message.getLast?.map isspace ≠ some true)
    (hpresent : ∀ m ∈ message, isspace m = false → ∃ word ∈ wordTable key, tolower m ∈ word)
    (hE : 10 ≤ fuelE) (hD : message.length + 1 ≤ fuelD) :
    ∃ cipher, encipherMessage fuelE (some key) (some message) rnd = some (.success cipher) ∧
      decipher fuelD key cipher =
        .finished (message.map tolower ++ (if message = [] then [10] else [10, 10])) := by
  refine ⟨_, encipherMessage_eq fuelE key message rnd hE hb hw, ?_⟩
  rw [dropFinalSpace_eq_self message hlast]
  unfold decipher
  have hmap : message.map (decodedByte (wordTable key)) = message.map tolower := by
    apply List.map_congr_left
    intro m hm
    unfold decodedByte
    by_cases hs : isspace m = true
    · rw [if_pos hs, tolower_of_isspace m hs]
    · rw [if_neg hs]
      obtain ⟨word, h1, h2⟩ := hpresent m hm (by simpa using hs)
      have hne : occurrences (wordTable key) (tolower m) ≠ [] := by
        intro h
        exact (occurrences_eq_nil_iff _ _).1 h word h1 h2
      rw [if_neg hne]
  cases message with
  | nil =>
    obtain ⟨f, rfl⟩ : ∃ f, fuelD = f + 1 := ⟨fuelD - 1, by omega⟩
    simp [joinTokens, decipherLoop]
  | cons m rest =>
    have h := decipherLoop_joinTokens key rnd (m :: rest) 0 fuelD [] hD
    rw [joinTokens_flush, hmap] at h
    rw [h]
    simp

/-- C1 (witness): the amended round trip at the key `the cat sat` and the plaintext `Cat sat`. -/
theorem roundtrip_lowercase_then_flush_witness :
    (bytes "Cat sat").getLast?.map isspace ≠ some true ∧
    (∀ m ∈ bytes "Cat sat", isspace m = false →
      ∃ word ∈ wordTable keyTheCatSat,
        tolower m ∈ word) ∧
    ∃ cipher, encipherMessage 10
        (some keyTheCatSat)
        (some (bytes "Cat sat")) (fun n => n) = some (.success cipher) ∧
      decipher 8 keyTheCatSat cipher =
        .finished ((bytes "Cat sat").map tolower ++ (if bytes "Cat sat" = [] then [10] else [10, 10])) :=
  ⟨by decide, by decide,
    roundtrip_lowercase_then_flush _ (bytes "Cat sat") (fun n => n) 10 8 (by decide) (by decide)
      (by decide) (by decide) (by decide) (by decide)⟩

/-- C2: for every key file and message byte `c`, whatever `rand()` returns, the
token that `encipherMessage` emits for `c` is either a coordinate
`<wordIndex>,<charIndex>,` with `wordIndex < wordCount`, `charIndex` below the
length of that word and `words[wordIndex][charIndex] == tolower(c)`, or it is
`#,` and then `tolower(c)` stands in no word; so a coordinate is emitted
whenever `tolower(c)` occurs in some word. -/
theorem coordinate_validity (key : CipherKeyFile) (c r fuel : Nat) (hfuel : 10 ≤ fuel) :
    (∃ w ci, w < key.wordCount ∧ ci < (wordAt key w).length ∧
        (wordAt key w)[ci]? = some (tolower c) ∧
        encipherCharacter fuel (wordTable key) c r =
          some (formatUnsigned w ++ [44] ++ formatUnsigned ci ++ [44])) ∨
    ((∀ word ∈ wordTable key, tolower c ∉ word) ∧
        encipherCharacter fuel (wordTable key) c r = some [35, 44]) := by
  rw [encipherCharacter_eq fuel (wordTable key) c r hfuel]
  rcases coordinateToken_cases (wordTable key) c r with ⟨htok, hnil⟩ | ⟨w, ci, hmem, htok⟩
  · right
    exact ⟨(occurrences_eq_nil_iff _ _).1 hnil, by rw [htok]; rfl⟩
  · left
    obtain ⟨h1, h2⟩ := occurrence_valid key (tolower c) w ci hmem
    obtain ⟨hlt, _⟩ := List.getElem?_eq_some.1 h2
    exact ⟨w, ci, h1, hlt, h2, by rw [htok]⟩

/-- C2 (witness): key `the cat sat`, plaintext `cats`: the letter `c` gets a
valid coordinate, and with `rand()` returning 0 the four letters are
enciphered as `1,0,1,1,0,0,2,0`. -/
theorem coordinate_validity_witness :
    10 ≤ 10 ∧
    readCipherKey 40 (bytes "the cat sat") =
      some (some keyTheCatSat) ∧
    encipherMessage 10
      (some keyTheCatSat)
      (some (bytes "cats")) (fun _ => 0) = some (.success (bytes "1,0,1,1,0,0,2,0")) ∧
    ((∃ w ci, w < 3 ∧
        ci < (wordAt keyTheCatSat w).length ∧
        (wordAt keyTheCatSat w)[ci]?
          = some (tolower 99) ∧
        encipherCharacter 10
          (wordTable keyTheCatSat) 99 0 =
          some (formatUnsigned w ++ [44] ++ formatUnsigned ci ++ [44])) ∨
      ((∀ word ∈ wordTable keyTheCatSat,
          tolower 99 ∉ word) ∧
        encipherCharacter 10
          (wordTable keyTheCatSat) 99 0 =
          some [35, 44])) :=
  ⟨by decide, by decide, by decide,
    coordinate_validity keyTheCatSat
      99 0 10 (by decide)⟩

/-- C3 (counterexample): in the key `aa` the byte `a` occurs `k = 2` times, at
`(0,0)` and `(0,1)`; with the skip count `N = 3 > k` the search returns the
first occurrence `(0,0)`, not the last one. -/
theorem saturation_counterexample :
    readCipherKey 10 (bytes "aa") = some (some keyAa) ∧
    occurrences (wordTable keyAa) 97 = [(0, 0), (0, 1)] ∧
    occurrenceSearch (wordTable keyAa) 97 10 (searchStart 3) = some ⟨0, 0, 1, true, true⟩ := by
  decide

/-- C3 (amended): when a character occurs `k ≥ 1` times in the word table and the
skip count is `N > k`, the occurrence search ends with `found` at the
coordinate of an occurrence of the character (never not-found); that
occurrence is the last one exactly when `k` divides `N`. -/
theorem saturation_only_on_multiples (words : List (List Nat)) (character N fuel : Nat)
    (hk : 1 ≤ (occurrences words character).length)
    (hN : (occurrences words character).length < N) (hfuel : N ≤ fuel) :
    ∃ w c, occurrenceSearch words character fuel (searchStart N) = some ⟨w, c, 1, true, true⟩ ∧
      (w, c) ∈ occurrences words character ∧
      ((occurrences words character).getLast? = some (w, c) ↔
        (occurrences words character).length ∣ N) := by
  have hmul : fuel ≤ fuel * (occurrences words character).length :=
    Nat.le_mul_of_pos_right _ hk
  obtain ⟨w, c, h1, h2⟩ := occurrenceSearch_present words character hk fuel 0 0 N false
    (by omega) (by omega)
  refine ⟨w, c, h2, List.getElem?_mem h1, ?_⟩
  rw [← pred_mod_eq_pred_iff _ N hk (by omega), List.getLast?_eq_getElem?]
  constructor
  · intro h
    exact nodup_getElem?_inj _ (occurrences_nodup words character) _ _ _ h1 h
  · intro h
    rw [← h]; exact h1

/-- C3 (witness): the key `aa` and the skip count `N = 4`, a multiple of `k = 2`. -/
theorem saturation_only_on_multiples_witness :
    1 ≤ (occurrences (wordTable keyAa) 97).length ∧
    (occurrences (wordTable keyAa) 97).length < 4 ∧
    ∃ w c, occurrenceSearch (wordTable keyAa) 97 4 (searchStart 4) = some ⟨w, c, 1, true, true⟩ ∧
      (w, c) ∈ occurrences (wordTable keyAa) 97 ∧
      ((occurrences (wordTable keyAa) 97).getLast? = some (w, c) ↔
        (occurrences (wordTable keyAa) 97).length ∣ 4) :=
  ⟨by decide, by decide,
    saturation_only_on_multiples (wordTable keyAa) 97 4 4 (by decide) (by decide) (by decide)⟩

/-- C4: for every key file and every message byte `c` that is not white space
and whose lower-case form stands in no word, the token emitted for `c` is
`#,` whatever `rand()` returns, and the message consisting of `c` alone is
enciphered as exactly `#`. -/
theorem not_found_encoding (key : CipherKeyFile) (c fuel : Nat) (rnd : Nat → Nat)
    (hb : key.buffer.isSome = true) (hw : key.wordArray.isSome = true)
    (hc : isspace c = false) (habsent : ∀ word ∈ wordTable key, tolower c ∉ word)
    (hfuel : 10 ≤ fuel) :
    (∀ r, encipherCharacter fuel (wordTable key) c r = some [35, 44]) ∧
    encipherMessage fuel (some key) (some [c]) rnd = some (.success [35]) := by
  have hnil : occurrences (wordTable key) (tolower c) = [] :=
    (occurrences_eq_nil_iff _ _).2 habsent
  have htok : ∀ r, coordinateToken (wordTable key) c r = [35] := by
    intro r
    unfold coordinateToken
    rw [hnil]; rfl
  constructor
  · intro r
    rw [encipherCharacter_eq fuel (wordTable key) c r hfuel, htok]
    rfl
  · rw [encipherMessage_eq fuel key [c] rnd hfuel hb hw]
    have hd : dropFinalSpace [c] = [c] := dropFinalSpace_eq_self [c] (by simp [hc])
    rw [hd]
    simp [joinTokens, hc, htok, isspace_32]

/-- C4 (witness): key `ab`, plaintext `z`: the ciphertext is exactly `#`. -/
theorem not_found_encoding_witness :
    readCipherKey 10 (bytes "ab") = some (some keyAb) ∧
    isspace 122 = false ∧ (∀ word ∈ wordTable keyAb, tolower 122 ∉ word) ∧
    (∀ r, encipherCharacter 10 (wordTable keyAb) 122 r = some [35, 44]) ∧
    encipherMessage 10 (some keyAb) (some (bytes "z")) (fun n => n) = some (.success (bytes "#")) :=
  ⟨by decide, by decide, by decide,
    not_found_encoding keyAb 122 10 (fun n => n) (by decide) (by decide) (by decide) (by decide)
      (by decide)⟩

/-- C5 (counterexample): on the ciphertext `#` the decode loop prints `#` and two
newlines, not `#` and one newline. -/
theorem decode_marker_counterexample :
    decipher 10 keyAb (bytes "#") = .finished (bytes "#\n\n") ∧
    bytes "#\n\n" ≠ bytes "#\n" := by
  decide

/-- C5 (amended): for every key file, whatever it holds, the decode loop run on the
ciphertext `#` terminates and prints exactly `#` followed by two newlines
(the flush inside the loop and the newline after it). -/
theorem decode_marker_two_newlines (key : CipherKeyFile) (fuel : Nat) (hfuel : 2 ≤ fuel) :
    decipher fuel key [35] = .finished [35, 10, 10] := by
  obtain ⟨f, rfl⟩ : ∃ f, fuel = f + 2 := ⟨fuel - 2, by omega⟩
  have : isspace 35 = false := rfl
  simp [decipher, decipherLoop, flushAtEnd, this]

/-- C5 (witness): the amended statement at a key file without buffer and word table. -/
theorem decode_marker_two_newlines_witness :
    2 ≤ 2 ∧ decipher 2 ⟨0, none, 0, none⟩ [35] = .finished [35, 10, 10] :=
  ⟨by decide, decode_marker_two_newlines ⟨0, none, 0, none⟩ 2 (by decide)⟩

/-- C6 (failing input): key `a`, plaintext `a` followed by a space: the ciphertext
is `0,0`; the final space of the plaintext is not in it. -/
theorem trailing_space_dropped :
    encipherMessage 10 (some keyA) (some (bytes "a ")) (fun _ => 0) = some (.success (bytes "0,0")) ∧
    encipherMessage 10 (some keyA) (some (bytes "a")) (fun _ => 0) = some (.success (bytes "0,0")) := by
  decide

/-- C7: for every key file with buffer and word table, every message and every
`rand()` stream, `encipherMessage` succeeds with a ciphertext that does not
end in a comma, in which no comma is followed by white space or by another
comma, and in which the tokens of two message bytes that follow each other
without white space are joined by exactly one comma. -/
theorem no_dangling_separator (key : CipherKeyFile) (message : List Nat) (rnd : Nat → Nat)
    (fuel : Nat) (hb : key.buffer.isSome = true) (hw : key.wordArray.isSome = true)
    (hfuel : 10 ≤ fuel) :
    ∃ cipher, encipherMessage fuel (some key) (some message) rnd = some (.success cipher) ∧
      cipher.getLast? ≠ some 44 ∧
      cipher.Chain' (fun a b => a = 44 → isspace b = false ∧ b ≠ 44) ∧
      ∀ pre c1 c2 post, message = pre ++ c1 :: c2 :: post →
        isspace c1 = false → isspace c2 = false →
        ∃ A B, cipher =
          A ++ coordinateToken (wordTable key) c1
              (rnd ((pre.filter (fun m => !isspace m)).length)) ++ [44] ++
            coordinateToken (wordTable key) c2
              (rnd ((pre.filter (fun m => !isspace m)).length + 1)) ++ B := by
  refine ⟨_, encipherMessage_eq fuel key message rnd hfuel hb hw, joinTokens_getLast _ _ _ _,
    ?_, ?_⟩
  · refine List.Chain'.imp ?_ (joinTokens_chain _ _ _ _)
    intro a b hab h44
    rcases hab h44 with hd | rfl
    · obtain ⟨_, hs, _, hc⟩ := isdigit_facts b hd
      exact ⟨hs, hc⟩
    · exact ⟨rfl, by decide⟩
  · intro pre c1 c2 post hmsg h1 h2
    obtain ⟨post1, hp⟩ := dropFinalSpace_consecutive pre c1 c2 post h2
    rw [hmsg, hp]
    obtain ⟨A, B, h⟩ := joinTokens_consecutive (wordTable key) rnd pre c1 c2 post1 0 h1 h2
    exact ⟨A, B, by simpa using h⟩

/-- C7 (witness): key `the cat sat`, plaintext `at  a `. -/
theorem no_dangling_separator_witness :
    10 ≤ 10 ∧
    encipherMessage 10 (some keyTheCatSat) (some (bytes "at  a ")) (fun n => n) =
      some (.success (bytes "1,1,1,2  1,1")) ∧
    ∃ cipher, encipherMessage 10 (some keyTheCatSat) (some (bytes "at  a ")) (fun n => n) =
        some (.success cipher) ∧
      cipher.getLast? ≠ some 44 ∧
      cipher.Chain' (fun a b => a = 44 → isspace b = false ∧ b ≠ 44) ∧
      ∀ pre c1 c2 post, bytes "at  a " = pre ++ c1 :: c2 :: post →
        isspace c1 = false → isspace c2 = false →
        ∃ A B, cipher =
          A ++ coordinateToken (wordTable keyTheCatSat) c1
              ((fun n => n) ((pre.filter (fun m => !isspace m)).length)) ++ [44] ++
            coordinateToken (wordTable keyTheCatSat) c2
              ((fun n => n) ((pre.filter (fun m => !isspace m)).length + 1)) ++ B :=
  ⟨by decide, by decide,
    no_dangling_separator keyTheCatSat (bytes "at  a ") (fun n => n) 10 (by decide) (by decide)
      (by decide)⟩

theorem joinTokens_nil_table (rnd : Nat → Nat) (message : List Nat) (calls : Nat) :
    ∀ b ∈ joinTokens [] rnd message calls, b = 35 ∨ b = 44 ∨ isspace b = true := by
  induction message generalizing calls with
  | nil => simp [joinTokens]
  | cons m rest ih =>
    have htok : coordinateToken [] m (rnd calls) = [35] := rfl
    unfold joinTokens
    by_cases hm : isspace m = true
    · simp only [hm, if_true, List.mem_cons]
      rintro b (rfl | hb)
      · exact Or.inr (Or.inr hm)
      · exact ih calls b hb
    · simp only [hm, Bool.false_eq_true, if_false, htok, List.mem_append, List.mem_singleton]
      rintro b ((rfl | hb) | hb)
      · exact Or.inl rfl
      · split at hb
        · simp at hb
        · simp only [List.mem_singleton] at hb
          exact Or.inr (Or.inl hb)
      · exact ih (calls + 1) b hb

/-- C10 (counterexample): with a key file that has a buffer and a word table but no
word, `encipherMessage` on the plaintext `hi` returns `true` with the
ciphertext `#,#`; it does not fail with `EINVAL`. -/
theorem empty_corpus_counterexample :
    keyEmpty.wordCount = 0 ∧
    encipherMessage 10 (some keyEmpty) (some (bytes "hi")) (fun _ => 0) =
      some (.success (bytes "#,#")) ∧
    encipherMessage 10 (some keyEmpty) (some (bytes "hi")) (fun _ => 0) ≠
      some (.failure EINVAL) := by
  decide

/-- C10 (amended): for every plaintext, `encipherMessage` called with a key file that
has a buffer and a word table but zero words returns `true`, and its
ciphertext consists of `#`, commas and white space only: every byte that is
not white space is enciphered as `#`. -/
theorem empty_corpus_enciphers_to_markers (key : CipherKeyFile) (message : List Nat)
    (rnd : Nat → Nat) (fuel : Nat) (hb : key.buffer.isSome = true)
    (hw : key.wordArray.isSome = true) (hcount : key.wordCount = 0) (hfuel : 10 ≤ fuel) :
    ∃ cipher, encipherMessage fuel (some key) (some message) rnd = some (.success cipher) ∧
      cipher = joinTokens [] rnd (dropFinalSpace message) 0 ∧
      (∀ m r, coordinateToken [] m r = [35]) ∧
      ∀ b ∈ cipher, b = 35 ∨ b = 44 ∨ isspace b = true := by
  have ht : wordTable key = [] := by simp [wordTable, hcount]
  refine ⟨_, encipherMessage_eq fuel key message rnd hfuel hb hw, by rw [ht],
    fun _ _ => rfl, ?_⟩
  rw [ht]
  exact joinTokens_nil_table rnd _ 0

/-- C10 (witness): the amended statement at the empty key file and the plaintext `hi yo`. -/
theorem empty_corpus_enciphers_to_markers_witness :
    keyEmpty.wordCount = 0 ∧
    ∃ cipher, encipherMessage 10 (some keyEmpty) (some (bytes "hi yo")) (fun n => n) =
        some (.success cipher) ∧
      cipher = joinTokens [] (fun n => n) (dropFinalSpace (bytes "hi yo")) 0 ∧
      (∀ m r, coordinateToken [] m r = [35]) ∧
      ∀ b ∈ cipher, b = 35 ∨ b = 44 ∨ isspace b = true :=
  ⟨by decide,
    empty_corpus_enciphers_to_markers keyEmpty (bytes "hi yo") (fun n => n) 10 (by decide)
      (by decide) (by decide) (by decide)⟩

/-! ## The populate pass of `ParseWords` -/

theorem parseLoop_step (cipherEnd fuel : Nat) (s : ParseState) (h1 : s.cipherItr < cipherEnd)
    (h2 : (parseStep s).status = 0) :
    parseLoop cipherEnd (fuel + 1) s = parseLoop cipherEnd fuel (parseStep s) := by
  simp [parseLoop, h1, h2]

theorem parseLoop_done (cipherEnd fuel : Nat) (s : ParseState) (h1 : ¬ s.cipherItr < cipherEnd) :
    parseLoop cipherEnd (fuel + 1) s = some s := by
  simp [parseLoop, h1]

theorem getD_middle (pre : List Nat) (b : Nat) (rest : List Nat) :
    (pre ++ b :: rest)[pre.length]?.getD 0 = b := by
  rw [List.getElem?_append_right (le_refl _)]
  simp

theorem set_middle (pre : List Nat) (b x : Nat) (rest : List Nat) :
    (pre ++ b :: rest).set pre.length x = pre ++ x :: rest := by
  simp [List.set_append_right]

theorem parseLoop_populate (rest : List Nat) :
    ∀ (pre tail : List Nat) (inW : Bool) (j wc : Nat) (arr : List (Option Nat))
      (fuel itr cipherEnd : Nat) (buf : List Nat),
      itr = pre.length → cipherEnd = pre.length + rest.length → buf = pre ++ rest ++ tail →
      3 * rest.length + 1 ≤ fuel →
      j + (wordStarts itr inW rest).length ≤ wc →
      ∃ ws, parseLoop cipherEnd fuel ⟨0, itr, (if inW then 2 else 0), j, wc, some arr, buf⟩ =
        some ⟨0, cipherEnd, ws, j + (wordStarts itr inW rest).length, wc,
          some (storeStarts arr j (wordStarts itr inW rest)),
          pre ++ markEnds inW rest ++ tail⟩ := by
  induction rest with
  | nil =>
    intro pre tail inW j wc arr fuel itr cipherEnd buf hitr hend hbuf hfuel _
    obtain ⟨f, rfl⟩ : ∃ f, fuel = f + 1 := ⟨fuel - 1, by omega⟩
    refine ⟨(if inW then 2 else 0), ?_⟩
    rw [parseLoop_done _ _ _ (by simp at hend ⊢; omega)]
    simp at hend
    simp [wordStarts, storeStarts, markEnds, hbuf, hitr, hend]
  | cons b rest ih =>
    intro pre tail inW j wc arr fuel itr cipherEnd buf hitr hend hbuf hfuel hcount
    simp only [List.length_cons] at hend hfuel
    have hget : buf[itr]?.getD 0 = b := by
      rw [hbuf, hitr, List.append_assoc, List.cons_append]; exact getD_middle pre b _
    have hlt : itr < cipherEnd := by omega
    by_cases hb : isspace b = true
    · cases inW
      · -- state 0 at a white-space byte: skip it
        obtain ⟨f, rfl⟩ : ∃ f, fuel = f + 1 := ⟨fuel - 1, by omega⟩
        have hstep : parseStep ⟨0, itr, 0, j, wc, some arr, buf⟩ =
            ⟨0, itr + 1, 0, j, wc, some arr, buf⟩ := by
          simp [parseStep, hget, hb]
        simp only [Bool.false_eq_true, if_false]
        rw [parseLoop_step _ _ _ hlt (by rw [hstep]), hstep]
        simp only [wordStarts, hb, if_true] at hcount ⊢
        obtain ⟨ws, h⟩ := ih (pre ++ [b]) tail false j wc arr f (itr + 1) cipherEnd buf
          (by simp [hitr]) (by simp; omega) (by simp [hbuf]) (by omega) hcount
        refine ⟨ws, ?_⟩
        simp only [Bool.false_eq_true, if_false] at h
        rw [h]
        simp [markEnds, hb]
      · -- state 2 at a white-space byte: end the word
        obtain ⟨f, rfl⟩ : ∃ f, fuel = f + 1 := ⟨fuel - 1, by omega⟩
        have hset : buf.set itr 0 = (pre ++ [0]) ++ rest ++ tail := by
          rw [hbuf, hitr, List.append_assoc, List.cons_append, set_middle]; simp
        have hstep : parseStep ⟨0, itr, 2, j, wc, some arr, buf⟩ =
            ⟨0, itr + 1, 0, j, wc, some arr, buf.set itr 0⟩ := by
          simp [parseStep, hget, hb]
        simp only [if_true]
        rw [parseLoop_step _ _ _ hlt (by rw [hstep]), hstep]
        simp only [wordStarts, hb, if_true] at hcount ⊢
        obtain ⟨ws, h⟩ := ih (pre ++ [0]) tail false j wc arr f (itr + 1) cipherEnd
          (buf.set itr 0) (by simp [hitr]) (by simp; omega) hset (by omega) hcount
        refine ⟨ws, ?_⟩
        simp only [Bool.false_eq_true, if_false] at h
        rw [h]
        simp [markEnds, hb]
    · have hb2 : isspace b = false := by simpa using hb
      cases inW
      · -- state 0 at a word byte: states 1 and 2, then over the byte
        obtain ⟨f, rfl⟩ : ∃ f, fuel = f + 3 := ⟨fuel - 3, by omega⟩
        simp only [wordStarts, hb2, Bool.false_eq_true, if_false, List.length_cons] at hcount ⊢
        have hstep1 : parseStep ⟨0, itr, 0, j, wc, some arr, buf⟩ =
            ⟨0, itr, 1, j, wc, some arr, buf⟩ := by
          simp [parseStep, hget, hb2]
        have hstep2 : parseStep ⟨0, itr, 1, j, wc, some arr, buf⟩ =
            ⟨0, itr, 2, j + 1, wc, some (arr.set j (some itr)), buf⟩ := by
          have : ¬ wc ≤ j := by omega
          simp [parseStep, this]
        have hstep3 : parseStep ⟨0, itr, 2, j + 1, wc, some (arr.set j (some itr)), buf⟩ =
            ⟨0, itr + 1, 2, j + 1, wc, some (arr.set j (some itr)), buf⟩ := by
          simp [parseStep, hget, hb2]
        rw [parseLoop_step _ _ _ hlt (by rw [hstep1]), hstep1,
          parseLoop_step _ _ _ hlt (by rw [hstep2]), hstep2,
          parseLoop_step _ _ _ hlt (by rw [hstep3]), hstep3]
        obtain ⟨ws, h⟩ := ih (pre ++ [b]) tail true (j + 1) wc (arr.set j (some itr)) f (itr + 1)
          cipherEnd buf (by simp [hitr]) (by simp; omega) (by simp [hbuf]) (by omega) (by omega)
        refine ⟨ws, ?_⟩
        simp only [if_true] at h
        rw [h]
        simp [markEnds, hb2, storeStarts]
        omega
      · -- state 2 at a word byte: over the byte
        obtain ⟨f, rfl⟩ : ∃ f, fuel = f + 1 := ⟨fuel - 1, by omega⟩
        simp only [wordStarts, hb2, Bool.false_eq_true, if_false, if_true] at hcount ⊢
        have hstep : parseStep ⟨0, itr, 2, j, wc, some arr, buf⟩ =
            ⟨0, itr + 1, 2, j, wc, some arr, buf⟩ := by
          simp [parseStep, hget, hb2]
        rw [parseLoop_step _ _ _ hlt (by rw [hstep]), hstep]
        obtain ⟨ws, h⟩ := ih (pre ++ [b]) tail true j wc arr f (itr + 1) cipherEnd buf
          (by simp [hitr]) (by simp; omega) (by simp [hbuf]) (by omega) hcount
        refine ⟨ws, ?_⟩
        simp only [if_true] at h
        rw [h]
        simp [markEnds, hb2]

theorem storeStarts_append (starts : List Nat) :
    ∀ (done pending : List (Option Nat)), starts.length ≤ pending.length →
      storeStarts (done ++ pending) done.length starts =
        done ++ starts.map some ++ pending.drop starts.length := by
  induction starts with
  | nil => intro done pending _; simp [storeStarts]
  | cons s starts ih =>
    intro done pending h
    cases pending with
    | nil => simp at h
    | cons p pending =>
      simp only [List.length_cons] at h
      unfold storeStarts
      have e : (done ++ p :: pending).set done.length (some s) = (done ++ [some s]) ++ pending := by
        rw [List.set_append_right _ _ (le_refl _)]; simp
      rw [e]
      have := ih (done ++ [some s]) pending (by omega)
      simp only [List.length_append, List.length_singleton] at this
      rw [this]
      simp

theorem storeStarts_all (starts : List Nat) (arr : List (Option Nat))
    (h : arr.length = starts.length) : storeStarts arr 0 starts = starts.map some := by
  have := storeStarts_append starts [] arr (by omega)
  simp only [List.nil_append, List.length_nil] at this
  rw [this, List.drop_of_length_le (by omega)]
  simp

theorem wordStarts_length (l : List Nat) (off : Nat) (inW : Bool) :
    (wordStarts off inW l).length = (runsFrom inW l).length := by
  induction l generalizing off inW with
  | nil => simp [wordStarts, runsFrom]
  | cons b rest ih =>
    unfold wordStarts runsFrom
    by_cases hb : isspace b = true
    · simp [hb, ih]
    · cases inW <;> simp [hb, ih]

theorem markEnds_length (l : List Nat) (inW : Bool) : (markEnds inW l).length = l.length := by
  induction l generalizing inW with
  | nil => simp [markEnds]
  | cons b rest ih =>
    unfold markEnds
    split <;> simp [ih]

theorem takeWhile_markEnds (l : List Nat) (hnul : 0 ∉ l) :
    (markEnds true l ++ [0]).takeWhile (fun b => b != 0) = l.takeWhile (fun c => !isspace c) := by
  induction l with
  | nil => simp [markEnds]
  | cons c rest ih =>
    have hc : c ≠ 0 := fun h => hnul (by simp [h])
    have hrest : 0 ∉ rest := fun h => hnul (List.mem_cons_of_mem _ h)
    unfold markEnds
    by_cases hs : isspace c = true
    · simp [hs]
    · simp only [hs, Bool.false_eq_true, if_false, List.cons_append]
      rw [List.takeWhile_cons, List.takeWhile_cons]
      simp [hc, hs, ih hrest]

theorem cstringAt_append (pre rest : List Nat) :
    cstringAt (pre ++ rest) pre.length = rest.takeWhile (fun b => b != 0) := by
  simp [cstringAt]

theorem cstringAt_starts (l : List Nat) (hnul : 0 ∉ l) :
    ∀ (pre : List Nat) (inW : Bool),
      (wordStarts pre.length inW l).map (cstringAt (pre ++ markEnds inW l ++ [0])) =
        runsFrom inW l := by
  induction l with
  | nil => intro pre inW; simp [wordStarts, runsFrom]
  | cons b rest ih =>
    intro pre inW
    have hb0 : b ≠ 0 := fun h => hnul (by simp [h])
    have hrest : 0 ∉ rest := fun h => hnul (List.mem_cons_of_mem _ h)
    unfold wordStarts runsFrom markEnds
    by_cases hb : isspace b = true
    · simp only [hb, if_true]
      have := ih hrest (pre ++ [if inW = true then 0 else b]) false
      simp only [List.length_append, List.length_singleton, List.append_assoc,
        List.singleton_append] at this
      simpa using this
    · simp only [hb, Bool.false_eq_true, if_false]
      have h2 := ih hrest (pre ++ [b]) true
      simp only [List.length_append, List.length_singleton, List.append_assoc,
        List.singleton_append] at h2
      cases inW
      · simp only [Bool.false_eq_true, if_false, List.map_cons]
        have hfirst : cstringAt (pre ++ b :: markEnds true rest ++ [0]) pre.length =
            b :: rest.takeWhile (fun c => !isspace c) := by
          rw [List.append_assoc, cstringAt_append, List.cons_append, List.takeWhile_cons]
          simp [hb0, takeWhile_markEnds rest hrest]
        rw [hfirst]
        congr 1
        simpa using h2
      · simpa using h2

theorem splitOnP_runs (l : List Nat) :
    ∃ h t, l.splitOnP isspace = h :: t ∧ h = l.takeWhile (fun c => !isspace c) ∧
      t.filter (fun run => !run.isEmpty) = runsFrom true l ∧
      (h :: t).filter (fun run => !run.isEmpty) = runsFrom false l := by
  induction l with
  | nil => exact ⟨[], [], by simp [List.splitOnP_nil], by simp, by simp [runsFrom], by simp [runsFrom]⟩
  | cons b rest ih =>
    obtain ⟨h, t, h1, h2, h3, h4⟩ := ih
    rw [List.splitOnP_cons, h1]
    by_cases hb : isspace b = true
    · refine ⟨[], h :: t, by simp [hb], by simp [hb], ?_, ?_⟩
      · rw [h4]; simp [runsFrom, hb]
      · simp only [List.filter_cons, List.isEmpty_nil, Bool.not_true, Bool.false_eq_true, if_false]
        simp only [List.filter_cons] at h4
        rw [h4]; simp [runsFrom, hb]
    · refine ⟨b :: h, t, by simp [hb], by simp [hb, h2], ?_, ?_⟩
      · rw [h3]; simp [runsFrom, hb]
      · simp [runsFrom, hb, h3, h2]

theorem maximalRuns_eq (l : List Nat) : maximalRuns l = runsFrom false l := by
  obtain ⟨h, t, h1, _, _, h4⟩ := splitOnP_runs l
  unfold maximalRuns
  rw [h1, h4]

theorem wordTable_of_starts (starts : List Nat) (size : Nat) (buffer : List Nat) :
    wordTable ⟨starts.length, some (starts.map some), size, some buffer⟩ =
      starts.map (cstringAt buffer) := by
  unfold wordTable
  apply List.ext_getElem?
  intro i
  simp only [List.getElem?_map]
  by_cases hi : i < starts.length
  · rw [List.getElem?_range hi]
    simp [wordAt, List.getElem?_eq_getElem hi]
  · rw [List.getElem?_eq_none (by simpa using hi), List.getElem?_eq_none (by simpa using hi)]
    simp

/-! ## Claims about `ParseWords` and `readCipherKey` -/

/-- C8 (counterexample): the key buffer `a`, NUL, `b` has one maximal run of three
non-white-space bytes, but the word that the populate pass leaves in the
table reads as the string `a`; and a buffer that is a single NUL byte gives
an empty word. -/
theorem tokenizer_counterexample :
    ParseWords 10 (some ⟨1, some [none], 3, some [97, 0, 98, 0]⟩) =
      some ⟨true, none, some ⟨1, some [some 0], 3, some [97, 0, 98, 0]⟩⟩ ∧
    wordTable ⟨1, some [some 0], 3, some [97, 0, 98, 0]⟩ = [[97]] ∧
    maximalRuns [97, 0, 98] = [[97, 0, 98]] ∧
    ParseWords 10 (some ⟨1, some [none], 1, some [0, 0]⟩) =
      some ⟨true, none, some ⟨1, some [some 0], 1, some [0, 0]⟩⟩ ∧
    wordTable ⟨1, some [some 0], 1, some [0, 0]⟩ = [[]] := by
  decide

/-- C8 (amended): for every key buffer without a NUL byte, the populate pass of
`ParseWords`, run with a word table that has one entry per word, succeeds,
and the word table read as NUL-terminated strings is, in order, the list of
maximal runs of non-white-space bytes of the buffer; no word is empty. -/
theorem tokenizer_words_are_maximal_runs (file : List Nat) (z : Nat) (arr : List (Option Nat))
    (fuel : Nat) (hnul : 0 ∉ file) (harr : arr.length = (maximalRuns file).length)
    (hfuel : 3 * file.length + 1 ≤ fuel) :
    ∃ key, ParseWords fuel
        (some ⟨(maximalRuns file).length, some arr, file.length, some (file ++ [z])⟩) =
        some ⟨true, none, some key⟩ ∧
      key.wordCount = (maximalRuns file).length ∧
      wordTable key = maximalRuns file ∧
      ∀ word ∈ wordTable key, word ≠ [] := by
  have hlen : (wordStarts 0 false file).length = (maximalRuns file).length := by
    rw [wordStarts_length, maximalRuns_eq]
  obtain ⟨ws, hloop⟩ := parseLoop_populate file [] [z] false 0 (maximalRuns file).length arr fuel 0
    file.length (file ++ [z]) rfl (by simp) (by simp) hfuel (by omega)
  simp only [Bool.false_eq_true, if_false, List.nil_append, Nat.zero_add] at hloop
  rw [storeStarts_all _ _ (by omega)] at hloop
  have hset : (markEnds false file ++ [z]).set file.length 0 = markEnds false file ++ [0] := by
    have := set_middle (markEnds false file) z 0 []
    rw [markEnds_length] at this
    exact this
  have htable : wordTable ⟨(maximalRuns file).length, some ((wordStarts 0 false file).map some),
      file.length, some (markEnds false file ++ [0])⟩ = maximalRuns file := by
    rw [← hlen, wordTable_of_starts, maximalRuns_eq]
    have := cstringAt_starts file hnul [] false
    simpa using this
  refine ⟨⟨(maximalRuns file).length, some ((wordStarts 0 false file).map some), file.length,
    some (markEnds false file ++ [0])⟩, ?_, rfl, htable, ?_⟩
  · simp [ParseWords, hloop, hset]
  · rw [htable]
    intro word hword
    unfold maximalRuns at hword
    rw [List.mem_filter] at hword
    intro h
    rw [h] at hword
    simp at hword

/-- C8 (witness): the key buffer `the cat sat`. -/
theorem tokenizer_words_are_maximal_runs_witness :
    0 ∉ bytes "the cat sat" ∧
    maximalRuns (bytes "the cat sat") = [bytes "the", bytes "cat", bytes "sat"] ∧
    ∃ key, ParseWords 34
        (some ⟨(maximalRuns (bytes "the cat sat")).length, some [none, none, none],
          (bytes "the cat sat").length, some (bytes "the cat sat" ++ [0])⟩) =
        some ⟨true, none, some key⟩ ∧
      key.wordCount = (maximalRuns (bytes "the cat sat")).length ∧
      wordTable key = maximalRuns (bytes "the cat sat") ∧
      ∀ word ∈ wordTable key, word ≠ [] :=
  ⟨by decide, by decide,
    tokenizer_words_are_maximal_runs (bytes "the cat sat") 0 [none, none, none] 34 (by decide)
      (by decide) (by decide)⟩

theorem lowerKeyLoop_buffer (buffer rest : List Nat) (charIndex : Nat) :
    (lowerKeyLoop buffer rest charIndex).1 = buffer := by
  induction rest generalizing charIndex with
  | nil => rfl
  | cons b rest ih =>
    unfold lowerKeyLoop
    split
    · exact ih (charIndex + 1)
    · rfl

/-- C9 (failing input): the key-loading step of `readCipherKey` leaves the bytes of
the key file as they are, for every file; the file `A` gives the buffer `A`
(not `a`) and a word table with the word `A`. -/
theorem key_not_lowercased :
    (∀ file, loadKeyBuffer file = file ++ [0]) ∧
    loadKeyBuffer (bytes "A") = [65, 0] ∧ tolower 65 = 97 ∧
    readCipherKey 10 (bytes "A") = some (some ⟨1, some [some 0], 1, some [65, 0]⟩) ∧
    wordTable ⟨1, some [some 0], 1, some [65, 0]⟩ = [[65]] := by
  refine ⟨fun file => lowerKeyLoop_buffer _ _ _, by decide, by decide, by decide, by decide⟩

/-! ## Occurrences are listed in scan order -/

theorem occurrencesInWord_sorted (character wi : Nat) (chars : List Nat) (ci : Nat) :
    (occurrencesInWord character wi chars ci).Pairwise (fun p q => precedes p q = true) := by
  induction chars generalizing ci with
  | nil => simp [occurrencesInWord]
  | cons ch rest ih =>
    unfold occurrencesInWord
    split
    · rw [List.pairwise_cons]
      refine ⟨?_, ih (ci + 1)⟩
      rintro ⟨w, c⟩ hmem
      have := (mem_occurrencesInWord character wi rest (ci + 1) w c).1 hmem
      simp only [precedes, Bool.or_eq_true, decide_eq_true_eq, Bool.and_eq_true, beq_iff_eq]
      omega
    · exact ih (ci + 1)

theorem occurrencesFrom_sorted (character : Nat) (words : List (List Nat)) (wi : Nat) :
    (occurrencesFrom character words wi).Pairwise (fun p q => precedes p q = true) := by
  induction words generalizing wi with
  | nil => simp [occurrencesFrom]
  | cons word rest ih =>
    unfold occurrencesFrom
    rw [List.pairwise_append]
    refine ⟨occurrencesInWord_sorted character wi word 0, ih (wi + 1), ?_⟩
    rintro ⟨w1, c1⟩ h1 ⟨w2, c2⟩ h2
    have a := (mem_occurrencesInWord character wi word 0 w1 c1).1 h1
    have b := (mem_occurrencesFrom character rest (wi + 1) w2 c2).1 h2
    simp only [precedes, Bool.or_eq_true, decide_eq_true_eq, Bool.and_eq_true, beq_iff_eq]
    omega

theorem occurrences_sorted (words : List (List Nat)) (character : Nat) :
    (occurrences words character).Pairwise (fun p q => precedes p q = true) :=
  occurrencesFrom_sorted character words 0

theorem precedes_asymm (p q : Nat × Nat) (h : precedes p q = true) : precedes q p = false := by
  obtain ⟨a, b⟩ := p
  obtain ⟨c, d⟩ := q
  have h1 : a < c ∨ (a = c ∧ b < d) := by simpa [precedes] using h
  have h2 : ¬ (c < a ∨ (c = a ∧ d < b)) := by omega
  simpa [precedes] using h2

theorem precedes_irrefl (p : Nat × Nat) : precedes p p = false := by
  simp [precedes]

theorem sorted_filter_precedes (l : List (Nat × Nat))
    (hl : l.Pairwise (fun p q => precedes p q = true)) (i : Nat) (x : Nat × Nat)
    (hx : l[i]? = some x) : (l.filter (fun p => precedes p x)).length = i := by
  induction l generalizing i with
  | nil => simp at hx
  | cons a t ih =>
    rw [List.pairwise_cons] at hl
    cases i with
    | zero =>
      simp only [List.getElem?_cons_zero, Option.some.injEq] at hx
      subst hx
      rw [List.filter_cons, precedes_irrefl]
      simp only [Bool.false_eq_true, if_false, List.length_eq_zero, List.filter_eq_nil_iff]
      intro y hy
      rw [precedes_asymm a y (hl.1 y hy)]
      simp
    | succ j =>
      simp only [List.getElem?_cons_succ] at hx
      have hax : precedes a x = true := hl.1 x (List.getElem?_mem hx)
      rw [List.filter_cons, hax]
      simp [ih hl.2 j hx]

/-! ## Claims about the occurrence search -/

theorem le_ceil_mul (N k : Nat) (hk : 1 ≤ k) : N ≤ (N + k - 1) / k * k := by
  have h1 := Nat.div_add_mod (N + k - 1) k
  have h2 := Nat.mod_lt (N + k - 1) (show 0 < k by omega)
  rw [Nat.mul_comm] at h1
  omega

/-- C14: when a character occurs `k` times in the word table and the skip count
`N` satisfies `1 ≤ N ≤ k`, the occurrence search ends in its first pass with
`found` at the coordinate `(w, c)` of occurrence number `N` in scan order:
`words[w][c]` is the character and exactly `N - 1` occurrences precede
`(w, c)`. -/
theorem nth_occurrence_selected (words : List (List Nat)) (character N fuel : Nat)
    (hN1 : 1 ≤ N) (hNk : N ≤ (occurrences words character).length) (hfuel : 1 ≤ fuel) :
    ∃ w c, occurrenceSearch words character fuel (searchStart N) = some ⟨w, c, 1, true, true⟩ ∧
      (occurrences words character)[N - 1]? = some (w, c) ∧
      (∃ word, words[w]? = some word ∧ word[c]? = some character) ∧
      ((occurrences words character).filter (fun p => precedes p (w, c))).length = N - 1 := by
  have hk : 0 < (occurrences words character).length := by omega
  have hmul : (occurrences words character).length ≤ fuel * (occurrences words character).length :=
    Nat.le_mul_of_pos_left _ hfuel
  obtain ⟨w, c, h1, h2⟩ := occurrenceSearch_present words character hk fuel 0 0 N false hN1
    (by omega)
  rw [Nat.mod_eq_of_lt (by omega)] at h1
  exact ⟨w, c, h2, h1, (mem_occurrences _ _ _ _).1 (List.getElem?_mem h1),
    sorted_filter_precedes _ (occurrences_sorted words character) _ _ h1⟩

/-- C14 (witness): key `the cat sat`, character `t`, skip count 2: the second `t` is at `(1, 2)`. -/
theorem nth_occurrence_selected_witness :
    1 ≤ 2 ∧ 2 ≤ (occurrences (wordTable keyTheCatSat) 116).length ∧
    occurrenceSearch (wordTable keyTheCatSat) 116 1 (searchStart 2) = some ⟨1, 2, 1, true, true⟩ ∧
    ∃ w c, occurrenceSearch (wordTable keyTheCatSat) 116 1 (searchStart 2) =
        some ⟨w, c, 1, true, true⟩ ∧
      (occurrences (wordTable keyTheCatSat) 116)[2 - 1]? = some (w, c) ∧
      (∃ word, (wordTable keyTheCatSat)[w]? = some word ∧ word[c]? = some 116) ∧
      ((occurrences (wordTable keyTheCatSat) 116).filter (fun p => precedes p (w, c))).length
        = 2 - 1 :=
  ⟨by decide, by decide, by decide,
    nth_occurrence_selected (wordTable keyTheCatSat) 116 2 1 (by decide) (by decide) (by decide)⟩

/-- C16: when a character occurs `k ≥ 1` times in the word table, for every skip
count `N ≥ 1` the `do-while` search ends with `found` at occurrence number
`((N - 1) mod k) + 1` in scan order (index `(N - 1) % k` of the list of
occurrences); a pass that starts with a count above `k` ends at the end of
the table, not found, with the count lowered by `k` and `foundOne` set, and
the next pass starts again at word 0. -/
theorem cyclic_occurrence_selected (words : List (List Nat)) (character N fuel : Nat)
    (hk : 1 ≤ (occurrences words character).length) (hN : 1 ≤ N) (hfuel : N ≤ fuel) :
    (∃ w c, occurrenceSearch words character fuel (searchStart N) = some ⟨w, c, 1, true, true⟩ ∧
      (occurrences words character)[(N - 1) % (occurrences words character).length]?
        = some (w, c)) ∧
    ((occurrences words character).length < N →
      ∃ ci, scanWords character words (searchStart N) =
        ⟨words.length, ci, N - (occurrences words character).length, false, true⟩) := by
  have hmul : fuel ≤ fuel * (occurrences words character).length :=
    Nat.le_mul_of_pos_right _ hk
  constructor
  · obtain ⟨w, c, h1, h2⟩ := occurrenceSearch_present words character hk fuel 0 0 N false hN
      (by omega)
    exact ⟨w, c, h2, h1⟩
  · intro hlt
    obtain ⟨ci, h⟩ := scanWords_miss character words 0 0 N false hlt
    have hpos : 0 < (occurrencesFrom character words 0).length := hk
    refine ⟨ci, ?_⟩
    unfold searchStart
    rw [h]
    simp [occurrences, hpos]

/-- C16 (witness): key `aa` (`k = 2`), skip count 3: the search wraps to the first `a`. -/
theorem cyclic_occurrence_selected_witness :
    1 ≤ (occurrences (wordTable keyAa) 97).length ∧
    (∃ w c, occurrenceSearch (wordTable keyAa) 97 3 (searchStart 3) = some ⟨w, c, 1, true, true⟩ ∧
      (occurrences (wordTable keyAa) 97)[(3 - 1) % (occurrences (wordTable keyAa) 97).length]?
        = some (w, c)) ∧
    ((occurrences (wordTable keyAa) 97).length < 3 →
      ∃ ci, scanWords 97 (wordTable keyAa) (searchStart 3) =
        ⟨(wordTable keyAa).length, ci, 3 - (occurrences (wordTable keyAa) 97).length, false, true⟩) :=
  ⟨by decide,
    cyclic_occurrence_selected (wordTable keyAa) 97 3 3 (by decide) (by decide) (by decide)⟩

/-- C18: `encipherMessage` terminates for every key file, message and `rand()`
stream (ten passes per search are enough); for every skip count `N ≥ 1` the
`do-while` search ends within `⌈N / k⌉` passes when the character occurs
`k ≥ 1` times, and in its first pass, not found, when it occurs nowhere. -/
theorem encoder_terminates (cipherKeyFile : Option CipherKeyFile) (message : Option (List Nat))
    (rnd : Nat → Nat) (fuel : Nat) (hfuel : 10 ≤ fuel) :
    (∃ r, encipherMessage fuel cipherKeyFile message rnd = some r) ∧
    (∀ words character N, 1 ≤ N → 1 ≤ (occurrences words character).length →
      ∃ s, occurrenceSearch words character
        ((N + (occurrences words character).length - 1) / (occurrences words character).length)
        (searchStart N) = some s ∧ s.found = true) ∧
    (∀ words character N, 1 ≤ N → (occurrences words character).length = 0 →
      ∃ s, occurrenceSearch words character 1 (searchStart N) = some s ∧ s.found = false) := by
  refine ⟨?_, ?_, ?_⟩
  · cases cipherKeyFile with
    | none => exact ⟨_, rfl⟩
    | some key =>
      cases message with
      | none => exact ⟨_, rfl⟩
      | some msg =>
        by_cases hb : key.buffer.isSome = true
        · by_cases hw : key.wordArray.isSome = true
          · exact ⟨_, encipherMessage_eq fuel key msg rnd hfuel hb hw⟩
          · refine ⟨.failure EINVAL, ?_⟩
            have : key.wordArray.isNone = true := by
              cases h : key.wordArray <;> simp [h] at hw ⊢
            simp [encipherMessage, this]
        · refine ⟨.failure EINVAL, ?_⟩
          have : key.buffer.isNone = true := by
            cases h : key.buffer <;> simp [h] at hb ⊢
          simp [encipherMessage, this]
  · intro words character N hN hk
    obtain ⟨w, c, _, h2⟩ := occurrenceSearch_present words character hk
      ((N + (occurrences words character).length - 1) / (occurrences words character).length)
      0 0 N false hN (le_ceil_mul N _ hk)
    exact ⟨_, h2, rfl⟩
  · intro words character N hN hk
    obtain ⟨ci, h⟩ := occurrenceSearch_absent words character (List.length_eq_zero.mp hk) 0 0 0 N hN
    exact ⟨_, h, rfl⟩

/-- C18 (witness): key `the cat sat`, message `Cats sat`. -/
theorem encoder_terminates_witness :
    10 ≤ 10 ∧
    (∃ r, encipherMessage 10 (some keyTheCatSat) (some (bytes "Cats sat")) (fun n => 7 * n) = some r) ∧
    (∀ words character N, 1 ≤ N → 1 ≤ (occurrences words character).length →
      ∃ s, occurrenceSearch words character
        ((N + (occurrences words character).length - 1) / (occurrences words character).length)
        (searchStart N) = some s ∧ s.found = true) ∧
    (∀ words character N, 1 ≤ N → (occurrences words character).length = 0 →
      ∃ s, occurrenceSearch words character 1 (searchStart N) = some s ∧ s.found = false) :=
  ⟨by decide,
    encoder_terminates (some keyTheCatSat) (some (bytes "Cats sat")) (fun n => 7 * n) 10 (by decide)⟩

/-! ## Claims about the ciphertext as a whole -/

theorem decodedByte_present (words : List (List Nat)) (message : List Nat)
    (hpresent : ∀ m ∈ message, isspace m = false → ∃ word ∈ words, tolower m ∈ word) :
    message.map (decodedByte words) = message.map tolower := by
  apply List.map_congr_left
  intro m hm
  unfold decodedByte
  by_cases hs : isspace m = true
  · rw [if_pos hs, tolower_of_isspace m hs]
  · rw [if_neg hs]
    obtain ⟨word, h1, h2⟩ := hpresent m hm (by simpa using hs)
    have hne : occurrences words (tolower m) ≠ [] := by
      intro h
      exact (occurrences_eq_nil_iff _ _).1 h word h1 h2
    rw [if_neg hne]

/-- C17: for every key file with buffer and word table, every non-empty plaintext
whose last byte is not white space and each of whose non-white-space bytes,
lower-cased, stands in some word, and every `rand()` stream (skip counts
`rand() % 10 + 1`), the decode loop run on the ciphertext of
`encipherMessage` terminates, within one iteration per plaintext byte and
one for the end test, and prints the lower-cased plaintext followed by
exactly two newline bytes. -/
theorem decoded_output_exact (key : CipherKeyFile) (message : List Nat) (rnd : Nat → Nat)
    (fuelE fuelD : Nat) (hb : key.buffer.isSome = true) (hw : key.wordArray.isSome = true)
    (hlast : message.getLast?.map isspace = some false)
    (hpresent : ∀ m ∈ message, isspace m = false → ∃ word ∈ wordTable key, tolower m ∈ word)
    (hE : 10 ≤ fuelE) (hD : message.length + 1 ≤ fuelD) :
    ∃ cipher, encipherMessage fuelE (some key) (some message) rnd = some (.success cipher) ∧
      decipher fuelD key cipher = .finished (message.map tolower ++ [10, 10]) ∧
      (message.map tolower ++ [10, 10]).length = message.length + 2 := by
  refine ⟨_, encipherMessage_eq fuelE key message rnd hE hb hw, ?_, by simp⟩
  rw [dropFinalSpace_eq_self message (by rw [hlast]; simp)]
  cases message with
  | nil => simp at hlast
  | cons m rest =>
    have h := decipherLoop_joinTokens key rnd (m :: rest) 0 fuelD [] hD
    rw [joinTokens_flush, decodedByte_present _ _ hpresent] at h
    unfold decipher
    rw [h]
    simp

/-- C17 (witness): key `the cat sat`, plaintext `The  Cat`. -/
theorem decoded_output_exact_witness :
    (bytes "The  Cat").getLast?.map isspace = some false ∧
    (∀ m ∈ bytes "The  Cat", isspace m = false →
      ∃ word ∈ wordTable keyTheCatSat, tolower m ∈ word) ∧
    ∃ cipher, encipherMessage 10 (some keyTheCatSat) (some (bytes "The  Cat")) (fun n => 3 * n) =
        some (.success cipher) ∧
      decipher 9 keyTheCatSat cipher = .finished ((bytes "The  Cat").map tolower ++ [10, 10]) ∧
      ((bytes "The  Cat").map tolower ++ [10, 10]).length = (bytes "The  Cat").length + 2 :=
  ⟨by decide, by decide,
    decoded_output_exact keyTheCatSat (bytes "The  Cat") (fun n => 3 * n) 10 9 (by decide)
      (by decide) (by decide) (by decide) (by decide) (by decide)⟩

theorem coordinateToken_keyA (r : Nat) : coordinateToken (wordTable keyA) 97 r = [48, 44, 48] := by
  have h : occurrences (wordTable keyA) (tolower 97) = [(0, 0)] := by decide
  unfold coordinateToken
  rw [h]
  simp [Nat.mod_one]
  decide

theorem pendingLayout_keyA_length (rnd : Nat → Nat) (n calls : Nat) (pending : Bool) :
    (pendingLayout (wordTable keyA) rnd (List.replicate n 97) calls pending).length =
      4 * n + (if pending then 1 else 0) := by
  induction n generalizing calls pending with
  | zero => cases pending <;> simp [pendingLayout]
  | succ n ih =>
    have hs : isspace 97 = false := rfl
    rw [List.replicate_succ]
    unfold pendingLayout
    simp only [hs, Bool.false_eq_true, if_false, coordinateToken_keyA, List.length_append, ih,
      if_true]
    cases pending <;> simp <;> omega

theorem encipher_keyA_lengths (rnd : Nat → Nat) (n : Nat) :
    ∃ written cipher,
      encipherLoop 10 (wordTable keyA) rnd (List.replicate n 97) 0 [] = some written ∧
      written.length = 4 * n ∧
      encipherMessage 10 (some keyA) (some (List.replicate n 97)) rnd = some (.success cipher) ∧
      cipher.length = 4 * n - 1 := by
  have h := encipherLoop_layout 10 (wordTable keyA) rnd (by decide) (List.replicate n 97) 0 []
    false (by simp)
  simp only [Bool.false_eq_true, if_false, List.append_nil, List.nil_append] at h
  have hlen := pendingLayout_keyA_length rnd n 0 false
  simp only [Bool.false_eq_true, if_false, Nat.add_zero] at hlen
  have hb : keyA.buffer.isNone = false := rfl
  have hw : keyA.wordArray.isNone = false := rfl
  refine ⟨_, (pendingLayout (wordTable keyA) rnd (List.replicate n 97) 0 false).dropLast, h, hlen,
    ?_, ?_⟩
  · simp only [encipherMessage, hb, hw, Bool.or_self, Bool.false_eq_true, if_false, h]
  · rw [List.length_dropLast, hlen]

/-- C19 (failing input): key `a` and the message of 1999 letters `a`: the message
loop writes 7996 bytes into `result` (each letter becomes `0,0,`) and the
returned ciphertext has 7995 bytes, more than the 4000 bytes of `result`. -/
theorem result_overflows_buffer :
    (List.replicate 1999 97).length = 1999 ∧
    ∃ written cipher,
      encipherLoop 10 (wordTable keyA) (fun _ => 0) (List.replicate 1999 97) 0 [] = some written ∧
      written.length = 7996 ∧
      encipherMessage 10 (some keyA) (some (List.replicate 1999 97)) (fun _ => 0) =
        some (.success cipher) ∧
      cipher.length = 7995 ∧ 4000 < cipher.length := by
  obtain ⟨written, cipher, h1, h2, h3, h4⟩ := encipher_keyA_lengths (fun _ => 0) 1999
  exact ⟨List.length_replicate _ _, written, cipher, h1, h2, h3, h4, by rw [h4]; decide⟩

/-! ## Claims about the decode loop on other ciphertexts -/

/-- C11 (counterexample): in the key `ab cd` word 0 is `ab`; the coordinate `0,3` has a
character index beyond that word, and the decode loop prints the byte `c` of
the next word and ends normally. -/
theorem out_of_range_counterexample :
    readCipherKey 20 (bytes "ab cd") = some (some keyAbCd) ∧
    0 < keyAbCd.wordCount ∧ (wordAt keyAbCd 0).length ≤ 3 ∧
    decipher 10 keyAbCd (bytes "0,3") = .finished (bytes "c\n\n") := by
  decide

/-- C11 (amended): the decode loop has no range check. For every key file and every
coordinate `<w>,<c>` in a ciphertext, when entry `w` of the word table
exists and the byte at (start of word `w`) + `c` lies in the key buffer,
also beyond the end of the word, the loop prints that byte and goes on with
the rest of the ciphertext; a ciphertext that is this coordinate alone
prints the byte and two newlines. -/
theorem decode_reads_without_range_check (key : CipherKeyFile) (arr : List (Option Nat))
    (buffer : List Nat) (w c off b f : Nat) (rest printed : List Nat)
    (harr : key.wordArray = some arr) (hbuf : key.buffer = some buffer)
    (hoff : arr[w]? = some (some off)) (hbyte : buffer[off + c]? = some b)
    (hrest : isdigit (rest.headD 0) = false) :
    decipherLoop key (f + 1) (formatUnsigned w ++ [44] ++ formatUnsigned c ++ rest) printed =
      decipherLoop key f (if rest.headD 0 = 44 then rest.tail else rest)
        (flushAtEnd (if rest.headD 0 = 44 then rest.tail else rest) (printed ++ [b])) ∧
    decipher (f + 2) key (formatUnsigned w ++ [44] ++ formatUnsigned c) = .finished [b, 10, 10] := by
  have hkb : keyByte key (w : Int) (c : Int) = some b := by
    unfold keyByte
    have hneg : ¬ ((w : Int) < 0 ∨ (c : Int) < 0) := by omega
    simp only [hneg, if_false, Int.toNat_ofNat, harr, hbuf, List.get?_eq_getElem?, hoff, hbyte]
  refine ⟨decipherLoop_coordinate key f w c b rest printed hkb hrest, ?_⟩
  have h := decipherLoop_coordinate key (f + 1) w c b [] [] hkb rfl
  simp only [List.append_nil] at h
  unfold decipher
  rw [h]
  simp [decipherLoop, flushAtEnd]

/-- C11 (witness): key `ab cd`, coordinate `0,3` followed by `,#`. -/
theorem decode_reads_without_range_check_witness :
    keyAbCd.wordArray = some [some 0, some 3] ∧ keyAbCd.buffer = some [97, 98, 0, 99, 100, 0] ∧
    (decipherLoop keyAbCd (5 + 1) (formatUnsigned 0 ++ [44] ++ formatUnsigned 3 ++ [44, 35]) [] =
      decipherLoop keyAbCd 5 (if [44, 35].headD 0 = 44 then [44, 35].tail else [44, 35])
        (flushAtEnd (if [44, 35].headD 0 = 44 then [44, 35].tail else [44, 35]) ([] ++ [99])) ∧
    decipher (5 + 2) keyAbCd (formatUnsigned 0 ++ [44] ++ formatUnsigned 3) = .finished [99, 10, 10]) :=
  ⟨rfl, rfl,
    decode_reads_without_range_check keyAbCd [some 0, some 3] [97, 98, 0, 99, 100, 0] 0 3 0 99 5
      [44, 35] [] rfl rfl (by decide) (by decide) (by decide)⟩

/-- C12 (failing input): the decode loop never ends on a ciphertext whose next byte is
not NUL, white space, `#` or a digit: no branch of the loop body moves
`bufferItr`, so every further iteration finds the same byte. -/
theorem decode_spins_on_other_byte (key : CipherKeyFile) (c : Nat) (rest printed : List Nat)
    (fuel : Nat) (h0 : c ≠ 0) (hs : isspace c = false) (h35 : c ≠ 35) (hd : isdigit c = false) :
    decipherLoop key fuel (c :: rest) printed = .outOfFuel := by
  induction fuel with
  | zero => rfl
  | succ f ih =>
    have hflush : flushAtEnd (c :: rest) printed = printed := by simp [flushAtEnd, h0]
    unfold decipherLoop
    simp only [List.headD_cons, h0, if_false, hs, Bool.false_eq_true, h35, hd, hflush]
    exact ih

/-- C12 (witness): the ciphertexts `x` and `,0,0` with the key `a`, for every amount of fuel. -/
theorem decode_spins_on_other_byte_witness :
    (∀ fuel, decipher fuel keyA (bytes "x") = .outOfFuel) ∧
    (∀ fuel, decipher fuel keyA (bytes ",0,0") = .outOfFuel) :=
  ⟨fun fuel => decode_spins_on_other_byte keyA 120 [] [] fuel (by decide) (by decide) (by decide)
      (by decide),
    fun fuel => decode_spins_on_other_byte keyA 44 [48, 44, 48] [] fuel (by decide) (by decide)
      (by decide) (by decide)⟩

/-! ## The counting pass and the failures of `ParseWords` -/

theorem parseLoop_count (rest : List Nat) :
    ∀ (pre tail : List Nat) (inW : Bool) (j wc : Nat) (fuel itr cipherEnd : Nat) (buf : List Nat),
      itr = pre.length → cipherEnd = pre.length + rest.length → buf = pre ++ rest ++ tail →
      3 * rest.length + 1 ≤ fuel →
      ∃ ws, parseLoop cipherEnd fuel ⟨0, itr, (if inW then 2 else 0), j, wc, none, buf⟩ =
        some ⟨0, cipherEnd, ws, j, wc + (wordStarts itr inW rest).length, none, buf⟩ := by
  induction rest with
  | nil =>
    intro pre tail inW j wc fuel itr cipherEnd buf hitr hend hbuf hfuel
    obtain ⟨f, rfl⟩ : ∃ f, fuel = f + 1 := ⟨fuel - 1, by omega⟩
    refine ⟨(if inW then 2 else 0), ?_⟩
    rw [parseLoop_done _ _ _ (by simp at hend ⊢; omega)]
    simp at hend
    simp [wordStarts, hitr, hend]
  | cons b rest ih =>
    intro pre tail inW j wc fuel itr cipherEnd buf hitr hend hbuf hfuel
    simp only [List.length_cons] at hend hfuel
    have hget : buf[itr]?.getD 0 = b := by
      rw [hbuf, hitr, List.append_assoc, List.cons_append]; exact getD_middle pre b _
    have hlt : itr < cipherEnd := by omega
    have hbuf2 : buf = (pre ++ [b]) ++ rest ++ tail := by simp [hbuf]
    by_cases hb : isspace b = true
    · have hstep0 : parseStep ⟨0, itr, 0, j, wc, none, buf⟩ = ⟨0, itr + 1, 0, j, wc, none, buf⟩ := by
        simp [parseStep, hget, hb]
      cases inW
      · obtain ⟨f, rfl⟩ : ∃ f, fuel = f + 1 := ⟨fuel - 1, by omega⟩
        simp only [Bool.false_eq_true, if_false]
        rw [parseLoop_step _ _ _ hlt (by rw [hstep0]), hstep0]
        simp only [wordStarts, hb, if_true]
        obtain ⟨ws, h⟩ := ih (pre ++ [b]) tail false j wc f (itr + 1) cipherEnd buf
          (by simp [hitr]) (by simp; omega) hbuf2 (by omega)
        exact ⟨ws, by simpa using h⟩
      · obtain ⟨f, rfl⟩ : ∃ f, fuel = f + 2 := ⟨fuel - 2, by omega⟩
        have hstep2 : parseStep ⟨0, itr, 2, j, wc, none, buf⟩ = ⟨0, itr, 0, j, wc, none, buf⟩ := by
          simp [parseStep, hget, hb]
        simp only [if_true]
        rw [parseLoop_step _ _ _ hlt (by rw [hstep2]), hstep2,
          parseLoop_step _ _ _ hlt (by rw [hstep0]), hstep0]
        simp only [wordStarts, hb, if_true]
        obtain ⟨ws, h⟩ := ih (pre ++ [b]) tail false j wc f (itr + 1) cipherEnd buf
          (by simp [hitr]) (by simp; omega) hbuf2 (by omega)
        exact ⟨ws, by simpa using h⟩
    · have hb2 : isspace b = false := by simpa using hb
      have hstep2 : ∀ wc1, parseStep ⟨0, itr, 2, j, wc1, none, buf⟩ =
          ⟨0, itr + 1, 2, j, wc1, none, buf⟩ := by
        intro wc1
        simp [parseStep, hget, hb2]
      cases inW
      · obtain ⟨f, rfl⟩ : ∃ f, fuel = f + 3 := ⟨fuel - 3, by omega⟩
        have hstep0 : parseStep ⟨0, itr, 0, j, wc, none, buf⟩ = ⟨0, itr, 1, j, wc, none, buf⟩ := by
          simp [parseStep, hget, hb2]
        have hstep1 : parseStep ⟨0, itr, 1, j, wc, none, buf⟩ =
            ⟨0, itr, 2, j, wc + 1, none, buf⟩ := by
          simp [parseStep]
        simp only [Bool.false_eq_true, if_false]
        rw [parseLoop_step _ _ _ hlt (by rw [hstep0]), hstep0,
          parseLoop_step _ _ _ hlt (by rw [hstep1]), hstep1,
          parseLoop_step _ _ _ hlt (by rw [hstep2]), hstep2]
        simp only [wordStarts, hb2, Bool.false_eq_true, if_false, List.length_cons]
        obtain ⟨ws, h⟩ := ih (pre ++ [b]) tail true j (wc + 1) f (itr + 1) cipherEnd buf
          (by simp [hitr]) (by simp; omega) hbuf2 (by omega)
        refine ⟨ws, ?_⟩
        simp only [if_true] at h
        rw [h]
        simp
        omega
      · obtain ⟨f, rfl⟩ : ∃ f, fuel = f + 1 := ⟨fuel - 1, by omega⟩
        simp only [if_true]
        rw [parseLoop_step _ _ _ hlt (by rw [hstep2]), hstep2]
        simp only [wordStarts, hb2, Bool.false_eq_true, if_false, if_true]
        obtain ⟨ws, h⟩ := ih (pre ++ [b]) tail true j wc f (itr + 1) cipherEnd buf
          (by simp [hitr]) (by simp; omega) hbuf2 (by omega)
        exact ⟨ws, by simpa using h⟩

theorem parseStep_status (s : ParseState) :
    (parseStep s).status = s.status ∨ (parseStep s).status = ERANGE := by
  unfold parseStep
  split
  · split <;> simp
  · split
    · split
      · split <;> simp
      · simp
    · split
      · split
        · split <;> simp
        · simp
      · simp

theorem parseLoop_status (cipherEnd fuel : Nat) (s r : ParseState) (h0 : s.status = 0)
    (h : parseLoop cipherEnd fuel s = some r) : r.status = 0 ∨ r.status = ERANGE := by
  induction fuel generalizing s with
  | zero => simp [parseLoop] at h
  | succ f ih =>
    unfold parseLoop at h
    split at h
    · rcases parseStep_status s with hs | hs
      · rw [h0] at hs
        simp only [hs, ne_eq, not_true_eq_false, if_false] at h
        exact ih _ hs h
      · have hne : (parseStep s).status ≠ 0 := by rw [hs]; decide
        simp only [hne, ne_eq, not_false_eq_true, if_true, Option.some.injEq] at h
        rw [← h]
        exact Or.inr hs
    · simp only [Option.some.injEq] at h
      rw [← h]
      exact Or.inl h0

theorem takeWhile_starts (l : List Nat) :
    ∀ (pre : List Nat) (inW : Bool),
      (wordStarts pre.length inW l).map
          (fun off => ((pre ++ l).drop off).takeWhile (fun c => !isspace c)) =
        runsFrom inW l := by
  induction l with
  | nil => intro pre inW; simp [wordStarts, runsFrom]
  | cons b rest ih =>
    intro pre inW
    have h2 : ∀ inW2, (wordStarts (pre.length + 1) inW2 rest).map
        (fun off => ((pre ++ b :: rest).drop off).takeWhile (fun c => !isspace c)) =
        runsFrom inW2 rest := by
      intro inW2
      have := ih (pre ++ [b]) inW2
      simpa using this
    unfold wordStarts runsFrom
    by_cases hb : isspace b = true
    · simp only [hb, if_true]
      exact h2 false
    · simp only [hb, Bool.false_eq_true, if_false]
      cases inW
      · simp only [Bool.false_eq_true, if_false, List.map_cons, h2 true]
        congr 1
        simp [List.takeWhile_cons, hb]
      · simp only [if_true]
        exact h2 true

/-! ## Claims about the two passes of `ParseWords` -/

theorem parseStep_none (s : ParseState) (hw : s.wordArray = none) :
    (parseStep s).wordArray = none ∧ (parseStep s).status = s.status := by
  unfold parseStep
  split
  · split <;> simp [hw]
  · split
    · simp [hw]
    · split
      · split
        · simp [hw]
        · simp [hw]
      · simp [hw]

theorem parseLoop_none_status (cipherEnd fuel : Nat) (s r : ParseState)
    (hw : s.wordArray = none) (h0 : s.status = 0)
    (h : parseLoop cipherEnd fuel s = some r) : r.status = 0 := by
  induction fuel generalizing s with
  | zero => simp [parseLoop] at h
  | succ f ih =>
    unfold parseLoop at h
    obtain ⟨h1, h2⟩ := parseStep_none s hw
    split at h
    · have hs : (parseStep s).status = 0 := by rw [h2, h0]
      simp only [hs, ne_eq, not_true_eq_false, if_false] at h
      exact ih _ h1 hs h
    · simp only [Option.some.injEq] at h
      rw [← h]
      exact h0

/-- C13 (counterexample): the populate pass on the buffer `a b` with a table of one
entry fails with `ERANGE`, and by then entry 0 has been set, the space has
been overwritten with NUL and so has the `b` at which the pass stopped. -/
theorem parse_failure_counterexample :
    ParseWords 20 (some ⟨1, some [none], 3, some [97, 32, 98, 0]⟩) =
      some ⟨false, some ERANGE, some ⟨1, some [some 0], 3, some [97, 0, 0, 0]⟩⟩ ∧
    ([some 0] : List (Option Nat)) ≠ [none] ∧ ([97, 0, 0, 0] : List Nat) ≠ [97, 32, 98, 0] := by
  decide

theorem parseLoop_break (cipherEnd fuel : Nat) (s : ParseState) (h1 : s.cipherItr < cipherEnd)
    (h2 : (parseStep s).status ≠ 0) :
    parseLoop cipherEnd (fuel + 1) s = some (parseStep s) := by
  simp [parseLoop, h1, h2]

theorem parseLoop_mono (cipherEnd f d : Nat) (s r : ParseState)
    (h : parseLoop cipherEnd f s = some r) : parseLoop cipherEnd (f + d) s = some r := by
  induction f generalizing s with
  | zero => simp [parseLoop] at h
  | succ f ih =>
    have e : f + 1 + d = (f + d) + 1 := by omega
    rw [e]
    by_cases hlt : s.cipherItr < cipherEnd
    · by_cases hst : (parseStep s).status = 0
      · rw [parseLoop_step _ _ _ hlt hst] at h ⊢
        exact ih _ h
      · rw [parseLoop_break _ _ _ hlt hst] at h ⊢
        exact h
    · rw [parseLoop_done _ _ _ hlt] at h ⊢
      exact h

theorem parseLoop_deterministic (cipherEnd f1 f2 : Nat) (s r1 r2 : ParseState)
    (h1 : parseLoop cipherEnd f1 s = some r1) (h2 : parseLoop cipherEnd f2 s = some r2) :
    r1 = r2 := by
  have a := parseLoop_mono cipherEnd f1 f2 s r1 h1
  have b := parseLoop_mono cipherEnd f2 f1 s r2 h2
  rw [Nat.add_comm] at b
  rw [a] at b
  exact Option.some.inj b

theorem parseLoop_erange (rest : List Nat) :
    ∀ (pre tail : List Nat) (inW : Bool) (j k : Nat) (arr : List (Option Nat))
      (fuel itr cipherEnd : Nat) (buf : List Nat),
      itr = pre.length → cipherEnd = pre.length + rest.length → buf = pre ++ rest ++ tail →
      3 * rest.length + 1 ≤ fuel →
      k < (wordStarts itr inW rest).length →
      ∃ s, parseLoop cipherEnd fuel ⟨0, itr, (if inW then 2 else 0), j, j + k, some arr, buf⟩ =
          some s ∧
        s.status = ERANGE ∧ s.wordCount = j + k ∧
        s.wordArray = some (storeStarts arr j ((wordStarts itr inW rest).take k)) ∧
        s.buffer.set s.cipherItr 0 = pre ++ markEndsStop k inW rest ++ tail := by
  induction rest with
  | nil =>
    intro pre tail inW j k arr fuel itr cipherEnd buf _ _ _ _ hk
    simp [wordStarts] at hk
  | cons b rest ih =>
    intro pre tail inW j k arr fuel itr cipherEnd buf hitr hend hbuf hfuel hk
    simp only [List.length_cons] at hend hfuel
    have hget : buf[itr]?.getD 0 = b := by
      rw [hbuf, hitr, List.append_assoc, List.cons_append]; exact getD_middle pre b _
    have hlt : itr < cipherEnd := by omega
    have hbuf2 : buf = (pre ++ [b]) ++ rest ++ tail := by simp [hbuf]
    by_cases hb : isspace b = true
    · cases inW
      · obtain ⟨f, rfl⟩ : ∃ f, fuel = f + 1 := ⟨fuel - 1, by omega⟩
        have hstep : parseStep ⟨0, itr, 0, j, j + k, some arr, buf⟩ =
            ⟨0, itr + 1, 0, j, j + k, some arr, buf⟩ := by
          simp [parseStep, hget, hb]
        simp only [Bool.false_eq_true, if_false]
        rw [parseLoop_step _ _ _ hlt (by rw [hstep]), hstep]
        simp only [wordStarts, hb, if_true] at hk ⊢
        obtain ⟨s, h1, h2, h3, h4, h5⟩ := ih (pre ++ [b]) tail false j k arr f (itr + 1) cipherEnd
          buf (by simp [hitr]) (by simp; omega) hbuf2 (by omega) hk
        simp only [Bool.false_eq_true, if_false] at h1
        exact ⟨s, h1, h2, h3, h4, by rw [h5]; simp [markEndsStop, hb]⟩
      · obtain ⟨f, rfl⟩ : ∃ f, fuel = f + 1 := ⟨fuel - 1, by omega⟩
        have hset : buf.set itr 0 = (pre ++ [0]) ++ rest ++ tail := by
          rw [hbuf, hitr, List.append_assoc, List.cons_append, set_middle]; simp
        have hstep : parseStep ⟨0, itr, 2, j, j + k, some arr, buf⟩ =
            ⟨0, itr + 1, 0, j, j + k, some arr, buf.set itr 0⟩ := by
          simp [parseStep, hget, hb]
        simp only [if_true]
        rw [parseLoop_step _ _ _ hlt (by rw [hstep]), hstep]
        simp only [wordStarts, hb, if_true] at hk ⊢
        obtain ⟨s, h1, h2, h3, h4, h5⟩ := ih (pre ++ [0]) tail false j k arr f (itr + 1) cipherEnd
          (buf.set itr 0) (by simp [hitr]) (by simp; omega) hset (by omega) hk
        simp only [Bool.false_eq_true, if_false] at h1
        exact ⟨s, h1, h2, h3, h4, by rw [h5]; simp [markEndsStop, hb]⟩
    · have hb2 : isspace b = false := by simpa using hb
      cases inW
      · simp only [wordStarts, hb2, Bool.false_eq_true, if_false, List.length_cons] at hk ⊢
        have hstep1 : parseStep ⟨0, itr, 0, j, j + k, some arr, buf⟩ =
            ⟨0, itr, 1, j, j + k, some arr, buf⟩ := by
          simp [parseStep, hget, hb2]
        cases k with
        | zero =>
          -- no entry left: state 1 breaks with ERANGE
          obtain ⟨f, rfl⟩ : ∃ f, fuel = f + 2 := ⟨fuel - 2, by omega⟩
          have hstep2 : parseStep ⟨0, itr, 1, j, j + 0, some arr, buf⟩ =
              ⟨ERANGE, itr, 1, j, j + 0, some arr, buf⟩ := by
            simp [parseStep]
          rw [parseLoop_step _ _ _ hlt (by rw [hstep1]), hstep1]
          refine ⟨⟨ERANGE, itr, 1, j, j + 0, some arr, buf⟩, ?_, rfl, rfl, ?_, ?_⟩
          · have hne : (parseStep ⟨0, itr, 1, j, j + 0, some arr, buf⟩).status ≠ 0 := by
              rw [hstep2]
              show ERANGE ≠ 0
              decide
            rw [parseLoop_break _ _ _ hlt hne, hstep2]
          · simp [storeStarts]
          · show buf.set itr 0 = _
            rw [hbuf, hitr, List.append_assoc, List.cons_append, set_middle]
            simp [markEndsStop, hb2]
        | succ k =>
          obtain ⟨f, rfl⟩ : ∃ f, fuel = f + 3 := ⟨fuel - 3, by omega⟩
          have hstep2 : parseStep ⟨0, itr, 1, j, j + (k + 1), some arr, buf⟩ =
              ⟨0, itr, 2, j + 1, j + (k + 1), some (arr.set j (some itr)), buf⟩ := by
            have : ¬ j + (k + 1) ≤ j := by omega
            simp [parseStep, this]
          have hstep3 : parseStep
              ⟨0, itr, 2, j + 1, j + (k + 1), some (arr.set j (some itr)), buf⟩ =
              ⟨0, itr + 1, 2, j + 1, j + (k + 1), some (arr.set j (some itr)), buf⟩ := by
            simp [parseStep, hget, hb2]
          rw [parseLoop_step _ _ _ hlt (by rw [hstep1]), hstep1,
            parseLoop_step _ _ _ hlt (by rw [hstep2]), hstep2,
            parseLoop_step _ _ _ hlt (by rw [hstep3]), hstep3]
          obtain ⟨s, h1, h2, h3, h4, h5⟩ := ih (pre ++ [b]) tail true (j + 1) k
            (arr.set j (some itr)) f (itr + 1) cipherEnd buf (by simp [hitr]) (by simp; omega)
            hbuf2 (by omega) (by omega)
          simp only [if_true] at h1
          have e : j + 1 + k = j + (k + 1) := by omega
          rw [e] at h1 h3
          exact ⟨s, h1, h2, h3, by rw [h4]; simp [storeStarts],
            by rw [h5]; simp [markEndsStop, hb2]⟩
      · obtain ⟨f, rfl⟩ : ∃ f, fuel = f + 1 := ⟨fuel - 1, by omega⟩
        simp only [wordStarts, hb2, Bool.false_eq_true, if_false, if_true] at hk ⊢
        have hstep : parseStep ⟨0, itr, 2, j, j + k, some arr, buf⟩ =
            ⟨0, itr + 1, 2, j, j + k, some arr, buf⟩ := by
          simp [parseStep, hget, hb2]
        rw [parseLoop_step _ _ _ hlt (by rw [hstep]), hstep]
        obtain ⟨s, h1, h2, h3, h4, h5⟩ := ih (pre ++ [b]) tail true j k arr f (itr + 1) cipherEnd
          buf (by simp [hitr]) (by simp; omega) hbuf2 (by omega) hk
        simp only [if_true] at h1
        exact ⟨s, h1, h2, h3, h4, by rw [h5]; simp [markEndsStop, hb2]⟩

theorem markEndsStop_length (l : List Nat) (k : Nat) (inW : Bool) :
    (markEndsStop k inW l).length = l.length := by
  induction l generalizing k inW with
  | nil => simp [markEndsStop]
  | cons b rest ih =>
    unfold markEndsStop
    split
    · simp [ih]
    · split
      · simp [ih]
      · cases k <;> simp [ih]

theorem markEndsStop_byte (l : List Nat) (k : Nat) (inW : Bool) (i x : Nat)
    (h : (markEndsStop k inW l)[i]? = some x) : x = 0 ∨ l[i]? = some x := by
  induction l generalizing k inW i with
  | nil => simp [markEndsStop] at h
  | cons b rest ih =>
    unfold markEndsStop at h
    cases i with
    | zero =>
      split at h
      · split at h
        · left; simpa using h.symm
        · right; simpa using h
      · split at h
        · right; simpa using h
        · cases k with
          | zero => left; simpa using h.symm
          | succ k => right; simpa using h
    | succ i =>
      simp only [List.getElem?_cons_succ]
      split at h
      · exact ih _ _ _ (by simpa using h)
      · split at h
        · exact ih _ _ _ (by simpa using h)
        · cases k with
          | zero => right; simpa using h
          | succ k => exact ih _ _ _ (by simpa using h)

theorem markEndsStop_append_byte (file tail : List Nat) (k i x : Nat)
    (h : (markEndsStop k false file ++ tail)[i]? = some x) :
    x = 0 ∨ (file ++ tail)[i]? = some x := by
  by_cases hi : i < file.length
  · rw [List.getElem?_append_left (by rw [markEndsStop_length]; exact hi)] at h
    rcases markEndsStop_byte file k false i x h with h1 | h1
    · exact Or.inl h1
    · right
      rw [List.getElem?_append_left hi]
      exact h1
  · right
    rw [List.getElem?_append_right (by rw [markEndsStop_length]; omega), markEndsStop_length] at h
    rw [List.getElem?_append_right (by omega)]
    exact h

/-- C13 (amended): a call of `ParseWords` that fails either fails with `EINVAL`, which
happens when the key file or its buffer is absent and leaves the key file,
its buffer and its word table exactly as they were, or it fails with
`ERANGE`. The latter happens only in the populate pass and only when the
buffer holds more than `wordCount` words; `wordCount` and `size` are then
as before, the table holds the starts of the first `wordCount` words, and
in the buffer the white-space byte that ends each of these words and the
first byte of the next word, at which the pass stopped, are NUL; every
other byte is as before. -/
theorem parse_failure_state (fuel : Nat) (cipherKeyFile : Option CipherKeyFile)
    (r : ParseReturn)
    (hwf : ∀ key buffer arr, cipherKeyFile = some key → key.buffer = some buffer →
      key.wordArray = some arr → key.size < buffer.length ∧ arr.length = key.wordCount)
    (h : ParseWords fuel cipherKeyFile = some r) (hfail : r.success = false) :
    (r.errno = some EINVAL ∧ r.key = cipherKeyFile ∧
      (cipherKeyFile = none ∨ ∃ key, cipherKeyFile = some key ∧ key.buffer = none)) ∨
    (r.errno = some ERANGE ∧ ∃ key buffer arr, cipherKeyFile = some key ∧
      key.buffer = some buffer ∧ key.wordArray = some arr ∧
      key.wordCount < (maximalRuns (buffer.take key.size)).length ∧
      r.key = some ⟨key.wordCount,
        some (((wordStarts 0 false (buffer.take key.size)).take key.wordCount).map some),
        key.size,
        some (markEndsStop key.wordCount false (buffer.take key.size) ++ buffer.drop key.size)⟩ ∧
      ∀ (i x : Nat), (markEndsStop key.wordCount false (buffer.take key.size) ++
          buffer.drop key.size)[i]? = some x → x = 0 ∨ buffer[i]? = some x) := by
  unfold ParseWords at h
  cases cipherKeyFile with
  | none =>
    simp only [Option.some.injEq] at h
    subst h
    exact Or.inl ⟨rfl, rfl, Or.inl rfl⟩
  | some key =>
    cases hbuf : key.buffer with
    | none =>
      simp only [hbuf, Option.some.injEq] at h
      subst h
      exact Or.inl ⟨rfl, rfl, Or.inr ⟨key, rfl, hbuf⟩⟩
    | some buffer =>
      simp only [hbuf] at h
      split at h
      · simp at h
      · rename_i s hloop
        split at h
        · rename_i hs0
          simp only [Option.some.injEq] at h
          subst h
          cases hw : key.wordArray with
          | none =>
            exfalso
            rw [hw] at hloop
            exact hs0 (parseLoop_none_status _ _ _ _ rfl rfl hloop)
          | some arr =>
            obtain ⟨hsize, harr⟩ := hwf key buffer arr rfl hbuf hw
            rw [hw] at hloop
            simp only [Option.isNone_some, Bool.false_eq_true, if_false] at hloop
            have hbt : buffer = [] ++ buffer.take key.size ++ buffer.drop key.size := by
              simp
            have hfl : (buffer.take key.size).length = key.size := by
              rw [List.length_take]; omega
            by_cases hcase : (wordStarts 0 false (buffer.take key.size)).length ≤ key.wordCount
            · exfalso
              obtain ⟨ws, hpop⟩ := parseLoop_populate (buffer.take key.size) [] (buffer.drop key.size)
                false 0 key.wordCount arr (3 * (buffer.take key.size).length + 1) 0 key.size buffer
                rfl (by simp [hfl]) hbt (le_refl _) (by omega)
              simp only [Bool.false_eq_true, if_false] at hpop
              have := parseLoop_deterministic _ _ _ _ _ _ hloop hpop
              exact hs0 (by rw [this])
            · obtain ⟨s1, he1, he2, he3, he4, he5⟩ := parseLoop_erange (buffer.take key.size) []
                (buffer.drop key.size) false 0 key.wordCount arr
                (3 * (buffer.take key.size).length + 1) 0 key.size buffer
                rfl (by simp [hfl]) hbt (le_refl _) (by omega)
              simp only [Bool.false_eq_true, if_false, Nat.zero_add, List.nil_append] at he1 he3 he5
              have hs := parseLoop_deterministic _ _ _ _ _ _ hloop he1
              subst hs
              have htake : ((wordStarts 0 false (buffer.take key.size)).take key.wordCount).length
                  = arr.length := by
                rw [List.length_take, harr]; omega
              rw [storeStarts_all _ _ htake.symm] at he4
              refine Or.inr ⟨by simp [he2], key, buffer, arr, rfl, hbuf, hw, ?_, ?_, ?_⟩
              · rw [maximalRuns_eq, ← wordStarts_length _ 0 false]; omega
              · simp [he3, he4, he5]
              · intro i x hx
                have := markEndsStop_append_byte _ _ _ _ _ hx
                simpa using this
        · simp only [Option.some.injEq] at h
          subst h
          simp at hfail

/-- C13 (witness): the buffer `a b` with a table of one entry: the pass fails with
`ERANGE`, entry 0 holds the start of `a`, and the space and the `b` are NUL.
(With the buffer of one NUL byte and an empty table the pass fails with
`ERANGE` and every byte it writes is the NUL that was there.) -/
theorem parse_failure_state_witness :
    ParseWords 20 (some keyShortTable) =
      some ⟨false, some ERANGE, some ⟨1, some [some 0], 3, some [97, 0, 0, 0]⟩⟩ ∧
    markEndsStop 1 false [97, 32, 98] ++ [0] = [97, 0, 0, 0] ∧
    ParseWords 20 (some ⟨0, some [], 1, some [0, 0]⟩) =
      some ⟨false, some ERANGE, some ⟨0, some [], 1, some [0, 0]⟩⟩ ∧
    ((some ERANGE = some EINVAL ∧
        some (⟨1, some [some 0], 3, some [97, 0, 0, 0]⟩ : CipherKeyFile) = some keyShortTable ∧
        (some keyShortTable = none ∨ ∃ key, some keyShortTable = some key ∧ key.buffer = none)) ∨
      (some ERANGE = some ERANGE ∧ ∃ key buffer arr, some keyShortTable = some key ∧
        key.buffer = some buffer ∧ key.wordArray = some arr ∧
        key.wordCount < (maximalRuns (buffer.take key.size)).length ∧
        some (⟨1, some [some 0], 3, some [97, 0, 0, 0]⟩ : CipherKeyFile) = some ⟨key.wordCount,
          some (((wordStarts 0 false (buffer.take key.size)).take key.wordCount).map some),
          key.size,
          some (markEndsStop key.wordCount false (buffer.take key.size) ++
            buffer.drop key.size)⟩ ∧
        ∀ (i x : Nat), (markEndsStop key.wordCount false (buffer.take key.size) ++
            buffer.drop key.size)[i]? = some x → x = 0 ∨ buffer[i]? = some x)) :=
  ⟨by decide, by decide, by decide,
    parse_failure_state 20 (some keyShortTable)
      ⟨false, some ERANGE, some ⟨1, some [some 0], 3, some [97, 0, 0, 0]⟩⟩
      (by
        intro key buffer arr hk hb ha
        cases hk
        cases hb
        cases ha
        decide)
      (by decide) rfl⟩

theorem parseWords_count (file : List Nat) (z wc0 fuel : Nat)
    (hfuel : 3 * file.length + 1 ≤ fuel) :
    ParseWords fuel (some ⟨wc0, none, file.length, some (file ++ [z])⟩) =
      some ⟨true, none, some ⟨(maximalRuns file).length, none, file.length, some (file ++ [z])⟩⟩ := by
  obtain ⟨ws, hloop⟩ := parseLoop_count file [] [z] false 0 0 fuel 0 file.length (file ++ [z]) rfl
    (by simp) (by simp) hfuel
  simp only [Bool.false_eq_true, if_false, Nat.zero_add] at hloop
  have hlen : (wordStarts 0 false file).length = (maximalRuns file).length := by
    rw [wordStarts_length, maximalRuns_eq]
  simp [ParseWords, hloop, hlen]

theorem parseWords_populate (file : List Nat) (z fuel : Nat) (arr : List (Option Nat))
    (harr : arr.length = (maximalRuns file).length) (hfuel : 3 * file.length + 1 ≤ fuel) :
    ParseWords fuel (some ⟨(maximalRuns file).length, some arr, file.length, some (file ++ [z])⟩) =
      some ⟨true, none, some ⟨(maximalRuns file).length,
        some ((wordStarts 0 false file).map some), file.length,
        some (markEnds false file ++ [0])⟩⟩ := by
  have hlen : (wordStarts 0 false file).length = (maximalRuns file).length := by
    rw [wordStarts_length, maximalRuns_eq]
  obtain ⟨ws, hloop⟩ := parseLoop_populate file [] [z] false 0 (maximalRuns file).length arr fuel 0
    file.length (file ++ [z]) rfl (by simp) (by simp) hfuel (by omega)
  simp only [Bool.false_eq_true, if_false, List.nil_append, Nat.zero_add] at hloop
  rw [storeStarts_all _ _ (by omega)] at hloop
  have hset : (markEnds false file ++ [z]).set file.length 0 = markEnds false file ++ [0] := by
    have := set_middle (markEnds false file) z 0 []
    rw [markEnds_length] at this
    exact this
  simp [ParseWords, hloop, hset]

/-- C15: for every key buffer, the counting pass of `ParseWords` (no word table)
succeeds, leaves the buffer as it is and sets `wordCount` to the number of
maximal runs of non-white-space bytes; the populate pass that follows with
a table of that many entries succeeds, stores in every entry the offset of
the start of one word, in order, and writes NUL at the ends of the words;
read in the original buffer from these offsets up to the next white space,
the words are the maximal runs that the counting pass counted.
`readCipherKey` runs the two passes in this way. -/
theorem two_pass_agreement (file : List Nat) (z wc0 fuel : Nat)
    (hfuel : 3 * file.length + 1 ≤ fuel) :
    ParseWords fuel (some ⟨wc0, none, file.length, some (file ++ [z])⟩) =
      some ⟨true, none, some ⟨(maximalRuns file).length, none, file.length, some (file ++ [z])⟩⟩ ∧
    (∀ arr : List (Option Nat), arr.length = (maximalRuns file).length →
      ParseWords fuel
          (some ⟨(maximalRuns file).length, some arr, file.length, some (file ++ [z])⟩) =
        some ⟨true, none, some ⟨(maximalRuns file).length,
          some ((wordStarts 0 false file).map some), file.length,
          some (markEnds false file ++ [0])⟩⟩) ∧
    (wordStarts 0 false file).length = (maximalRuns file).length ∧
    (wordStarts 0 false file).map
        (fun off => (file.drop off).takeWhile (fun c => !isspace c)) = maximalRuns file ∧
    readCipherKey fuel file =
      some (some ⟨(maximalRuns file).length, some ((wordStarts 0 false file).map some),
        file.length, some (markEnds false file ++ [0])⟩) := by
  have hlen : (wordStarts 0 false file).length = (maximalRuns file).length := by
    rw [wordStarts_length, maximalRuns_eq]
  refine ⟨parseWords_count file z wc0 fuel hfuel,
    fun arr harr => parseWords_populate file z fuel arr harr hfuel, hlen, ?_, ?_⟩
  · have := takeWhile_starts file [] false
    rw [maximalRuns_eq]
    simpa using this
  · have hload : loadKeyBuffer file = file ++ [0] := lowerKeyLoop_buffer _ _ _
    have h2 := parseWords_populate file 0 fuel (List.replicate (maximalRuns file).length none)
      (List.length_replicate _ _) hfuel
    simp [readCipherKey, hload, parseWords_count file 0 0 fuel hfuel, h2]

/-- C15 (witness): the key buffer `the cat sat` with both passes run by hand. -/
theorem two_pass_agreement_witness :
    3 * (bytes "the cat sat").length + 1 ≤ 34 ∧
    maximalRuns (bytes "the cat sat") = [bytes "the", bytes "cat", bytes "sat"] ∧
    wordStarts 0 false (bytes "the cat sat") = [0, 4, 8] ∧
    readCipherKey 34 (bytes "the cat sat") = some (some keyTheCatSat) ∧
    (ParseWords 34 (some ⟨7, none, (bytes "the cat sat").length, some (bytes "the cat sat" ++ [0])⟩) =
      some ⟨true, none, some ⟨(maximalRuns (bytes "the cat sat")).length, none,
        (bytes "the cat sat").length, some (bytes "the cat sat" ++ [0])⟩⟩ ∧
    (∀ arr : List (Option Nat), arr.length = (maximalRuns (bytes "the cat sat")).length →
      ParseWords 34
          (some ⟨(maximalRuns (bytes "the cat sat")).length, some arr,
            (bytes "the cat sat").length, some (bytes "the cat sat" ++ [0])⟩) =
        some ⟨true, none, some ⟨(maximalRuns (bytes "the cat sat")).length,
          some ((wordStarts 0 false (bytes "the cat sat")).map some),
          (bytes "the cat sat").length,
          some (markEnds false (bytes "the cat sat") ++ [0])⟩⟩) ∧
    (wordStarts 0 false (bytes "the cat sat")).length = (maximalRuns (bytes "the cat sat")).length ∧
    (wordStarts 0 false (bytes "the cat sat")).map
        (fun off => ((bytes "the cat sat").drop off).takeWhile (fun c => !isspace c)) =
      maximalRuns (bytes "the cat sat") ∧
    readCipherKey 34 (bytes "the cat sat") =
      some (some ⟨(maximalRuns (bytes "the cat sat")).length,
        some ((wordStarts 0 false (bytes "the cat sat")).map some),
        (bytes "the cat sat").length, some (markEnds false (bytes "the cat sat") ++ [0])⟩)) :=
  ⟨by decide, by decide, by decide, by decide,
    two_pass_agreement (bytes "the cat sat") 0 7 34 (by decide)⟩

end Cipher
